import Mathlib

set_option linter.unusedSectionVars false

/-
Verification of the reactive dependency-graph evaluator (the Reactor) from
src/rust/react/src/lib.rs, as a shallow embedding.

Modelling decisions, each traceable to the source:
* Rust HashMaps become association lists (key-value lists, first match wins).
  HashMap::insert replaces the binding in place when the key is present and
  appends otherwise; iteration order of a HashMap is unspecified in Rust and
  is determinised here to insertion order.
* The generic value type T (Copy + PartialEq in the source) becomes a type
  parameter with DecidableEq.
* Cell::get_value and Reactor::update_dependencies recurse through the graph
  with no structural bound in the source; the embedding gives them fuel and
  returns none if the fuel runs out.  On well-formed states (the ones
  reachable through the API, where every dependency has a smaller identifier
  than its dependent) a fuel of r.id + 1 is proven sufficient, so the fuel is
  invisible at every reachable state.
* Closures FnMut(T) registered as callbacks carry no information that the
  verified properties depend on besides their identity, so the callback
  registry stores the callback ids and the propagation engine returns the
  list of invocations (cell id, callback id, argument) it would have made.
* update_dependencies additionally returns a ghost trace recording, in order,
  each evaluation of a compute function (line 324 of the source) and each
  cache write (line 331); the trace does not influence the computation.
-/

/-- InputCellId(usize) from the source. -/
structure InputCellId where
  id : Nat
deriving DecidableEq

/-- ComputeCellId(usize) from the source. -/
structure ComputeCellId where
  id : Nat
deriving DecidableEq

/-- CallbackId(usize) from the source. -/
structure CallbackId where
  id : Nat
deriving DecidableEq

/-- CellId, the tagged union over input and compute identifiers. -/
inductive CellId where
  | Input : InputCellId → CellId
  | Compute : ComputeCellId → CellId
deriving DecidableEq

/-- CellId::get_id from the source: the raw numeric identifier. -/
def CellId.get_id : CellId → Nat
  | CellId.Input c => c.id
  | CellId.Compute c => c.id

/-- RemoveCallbackError from the source. -/
inductive RemoveCallbackError where
  | NonexistentCell : RemoveCallbackError
  | NonexistentCallback : RemoveCallbackError
deriving DecidableEq

/-- ComputeCell: ordered dependency list, compute function, cached value. -/
structure ComputeCell (T : Type) where
  dependencies : List CellId
  func : List T → T
  value : T

/-- Cell: either an input cell holding a raw value, or a compute cell. -/
inductive Cell (T : Type) where
  | Input : T → Cell T
  | Compute : ComputeCell T → Cell T

/-- CallbackEntry: per-cell callback id counter plus the registry of live
callback ids (the stored closures are irrelevant to the verified
properties, only their identity matters). -/
structure CallbackEntry where
  id : Nat
  callbacks : List Nat

/-- The Reactor struct from the source.  The usize / ComputeCellId keys of
the four HashMaps all become Nat or CellId keys of association lists. -/
structure Reactor (T : Type) where
  id : Nat
  input_cells : List (Nat × Cell T)
  compute_cells : List (Nat × Cell T)
  callbacks : List (Nat × CallbackEntry)
  dependencies : List (CellId × List CellId)

/-- Reactor::new / Default::default. -/
def Reactor.new (T : Type) : Reactor T :=
  { id := 0, input_cells := [], compute_cells := [], callbacks := [], dependencies := [] }

section AssocList

variable {α : Type} {β : Type} [DecidableEq α]

/-- HashMap::get on an association list: first binding of the key. -/
def lookupA : List (α × β) → α → Option β
  | [], _ => none
  | (k, v) :: rest, a => if k = a then some v else lookupA rest a

/-- HashMap::insert: replace the binding in place if present, else append. -/
def insertA : List (α × β) → α → β → List (α × β)
  | [], a, b => [(a, b)]
  | (k, v) :: rest, a, b => if k = a then (a, b) :: rest else (k, v) :: insertA rest a b

/-- Entry::and_modify: apply f to the binding if the key is present. -/
def modifyA : List (α × β) → α → (β → β) → List (α × β)
  | [], _, _ => []
  | (k, v) :: rest, a, f => if k = a then (k, f v) :: rest else (k, v) :: modifyA rest a f

@[simp] theorem lookupA_nil (a : α) : lookupA ([] : List (α × β)) a = none := rfl

@[simp] theorem lookupA_cons (k : α) (v : β) (rest : List (α × β)) (a : α) :
    lookupA ((k, v) :: rest) a = if k = a then some v else lookupA rest a := rfl

@[simp] theorem insertA_nil (a : α) (b : β) : insertA ([] : List (α × β)) a b = [(a, b)] := rfl

@[simp] theorem insertA_cons (k : α) (v : β) (rest : List (α × β)) (a : α) (b : β) :
    insertA ((k, v) :: rest) a b
      = if k = a then (a, b) :: rest else (k, v) :: insertA rest a b := rfl

@[simp] theorem modifyA_nil (a : α) (f : β → β) : modifyA ([] : List (α × β)) a f = [] := rfl

@[simp] theorem modifyA_cons (k : α) (v : β) (rest : List (α × β)) (a : α) (f : β → β) :
    modifyA ((k, v) :: rest) a f
      = if k = a then (k, f v) :: rest else (k, v) :: modifyA rest a f := rfl

theorem lookupA_insertA_self (l : List (α × β)) (a : α) (b : β) :
    lookupA (insertA l a b) a = some b := by
  induction l with
  | nil => simp
  | cons p rest ih =>
    obtain ⟨k, v⟩ := p
    by_cases h : k = a <;> simp [h, ih]

theorem lookupA_insertA_ne (l : List (α × β)) (a a' : α) (b : β) (h : a ≠ a') :
    lookupA (insertA l a b) a' = lookupA l a' := by
  induction l with
  | nil => simp [h]
  | cons p rest ih =>
    obtain ⟨k, v⟩ := p
    by_cases hk : k = a
    · subst hk; simp [h, if_neg (fun hh => h hh)]
    · simp only [insertA_cons, if_neg hk, lookupA_cons, ih]

theorem lookupA_modifyA_self (l : List (α × β)) (a : α) (f : β → β) :
    lookupA (modifyA l a f) a = (lookupA l a).map f := by
  induction l with
  | nil => simp
  | cons p rest ih =>
    obtain ⟨k, v⟩ := p
    by_cases h : k = a <;> simp [h, ih]

theorem lookupA_modifyA_ne (l : List (α × β)) (a a' : α) (f : β → β) (h : a ≠ a') :
    lookupA (modifyA l a f) a' = lookupA l a' := by
  induction l with
  | nil => simp
  | cons p rest ih =>
    obtain ⟨k, v⟩ := p
    by_cases hk : k = a
    · subst hk; simp [if_neg (fun hh => h hh)]
    · simp only [modifyA_cons, if_neg hk, lookupA_cons, ih]

theorem lookupA_mem {l : List (α × β)} {a : α} {b : β} (h : lookupA l a = some b) :
    (a, b) ∈ l := by
  induction l with
  | nil => simp at h
  | cons p rest ih =>
    obtain ⟨k, v⟩ := p
    rw [lookupA_cons] at h
    by_cases hk : k = a
    · rw [if_pos hk] at h
      injection h with h
      subst h; subst hk
      exact List.mem_cons_self _ _
    · rw [if_neg hk] at h
      exact List.mem_cons_of_mem _ (ih h)

theorem lookupA_eq_none_iff {l : List (α × β)} {a : α} :
    lookupA l a = none ↔ a ∉ l.map Prod.fst := by
  induction l with
  | nil => simp
  | cons p rest ih =>
    obtain ⟨k, v⟩ := p
    by_cases hk : k = a
    · subst hk; simp
    · simp [hk, ih, Ne.symm hk]

theorem lookupA_of_mem_nodup {l : List (α × β)} {a : α} {b : β}
    (hmem : (a, b) ∈ l) (hnd : (l.map Prod.fst).Nodup) : lookupA l a = some b := by
  induction l with
  | nil => simp at hmem
  | cons p rest ih =>
    obtain ⟨k, v⟩ := p
    simp only [List.map_cons, List.nodup_cons] at hnd
    rcases List.mem_cons.mp hmem with h | h
    · rw [Prod.ext_iff] at h
      obtain ⟨h1, h2⟩ := h
      simp at h1 h2
      subst h1; subst h2; simp
    · have hk : k ≠ a := by
        intro hka; subst hka
        exact hnd.1 (List.mem_map.mpr ⟨(k, b), h, rfl⟩)
      simp [hk, ih h hnd.2]

theorem insertA_eq_self {l : List (α × β)} {a : α} {b : β} (h : lookupA l a = some b) :
    insertA l a b = l := by
  induction l with
  | nil => simp at h
  | cons p rest ih =>
    obtain ⟨k, v⟩ := p
    rw [lookupA_cons] at h
    by_cases hk : k = a
    · rw [if_pos hk] at h
      injection h with h
      subst h; subst hk
      simp
    · rw [if_neg hk] at h
      simp [hk, ih h]

theorem insertA_eq_append {l : List (α × β)} {a : α} (h : lookupA l a = none) (b : β) :
    insertA l a b = l ++ [(a, b)] := by
  induction l with
  | nil => simp
  | cons p rest ih =>
    obtain ⟨k, v⟩ := p
    by_cases hk : k = a
    · subst hk; simp at h
    · simp only [lookupA_cons, if_neg hk] at h
      simp [hk, ih h]

theorem map_fst_insertA_mem {l : List (α × β)} {a : α} (h : (lookupA l a).isSome) (b : β) :
    (insertA l a b).map Prod.fst = l.map Prod.fst := by
  induction l with
  | nil => simp at h
  | cons p rest ih =>
    obtain ⟨k, v⟩ := p
    by_cases hk : k = a
    · subst hk; simp
    · simp only [lookupA_cons, if_neg hk] at h
      simp [hk, ih h]

theorem map_fst_modifyA (l : List (α × β)) (a : α) (f : β → β) :
    (modifyA l a f).map Prod.fst = l.map Prod.fst := by
  induction l with
  | nil => simp
  | cons p rest ih =>
    obtain ⟨k, v⟩ := p
    by_cases hk : k = a <;> simp [hk, ih]

end AssocList

section ReactorOps

variable {T : Type} [DecidableEq T]

/-- The map in which a CellId is looked up: input ids in input_cells,
compute ids in compute_cells (Cell::get_value, lines 91 to 94). -/
def cellMap (r : Reactor T) : CellId → List (Nat × Cell T)
  | CellId.Input _ => r.input_cells
  | CellId.Compute _ => r.compute_cells

/-- The dependency-value fold inside Cell::get_value (lines 85 to 101):
recursively evaluate each dependency that resolves, silently skipping
dependencies whose id resolves to no cell, in declaration order.  gv is the
recursive evaluator (get_value at the remaining fuel). -/
def depValues (r : Reactor T) (gv : Cell T → Option T) : List CellId → Option (List T)
  | [] => some []
  | d :: rest =>
    match lookupA (cellMap r d) d.get_id with
    | none => depValues r gv rest
    | some c =>
      match gv c with
      | none => none
      | some v => (depValues r gv rest).map (fun l => v :: l)

/-- Cell::get_value (lines 81 to 107), with fuel standing in for the
unbounded recursion of the source: an input cell returns its stored value,
a compute cell applies its function to the recursively evaluated values of
its dependencies.  The cached value field is never read. -/
def getValueF (r : Reactor T) : Nat → Cell T → Option T
  | 0, _ => none
  | _ + 1, Cell.Input v => some v
  | f + 1, Cell.Compute cc => (depValues r (getValueF r f) cc.dependencies).map cc.func

/-- Reactor::value (lines 206 to 211): look the id up in the matching map
and evaluate the found cell.  Fuel r.id + 1 is sufficient on well-formed
states (proved below). -/
def Reactor.value (r : Reactor T) (i : CellId) : Option T :=
  match i with
  | CellId.Input c => (lookupA r.input_cells c.id).bind (getValueF r (r.id + 1))
  | CellId.Compute c => (lookupA r.compute_cells c.id).bind (getValueF r (r.id + 1))

/-- Reactor::get_cells_values (lines 311 to 316): the values of the cells
that resolve, in order, missing ids filtered out. -/
def getCellsValues (r : Reactor T) (ds : List CellId) : List T :=
  ds.filterMap (fun d => r.value d)

/-- Reactor::create_input (lines 146 to 153). -/
def create_input (r : Reactor T) (initial : T) : InputCellId × Reactor T :=
  (⟨r.id + 1⟩,
    { r with id := r.id + 1,
             input_cells := insertA r.input_cells (r.id + 1) (Cell.Input initial) })

/-- The dependency-index update of create_compute (lines 190 to 195):
entry(cell_id).and_modify(push new id).or_insert(vec with the new id). -/
def pushDep (m : List (CellId × List CellId)) (d : CellId) (c : CellId) :
    List (CellId × List CellId) :=
  match lookupA m d with
  | some l => insertA m d (l ++ [c])
  | none => m ++ [(d, [c])]

/-- Reactor::create_compute (lines 168 to 197): reject at the first
dependency whose value is absent; otherwise seed the cached value with the
function applied to the current dependency values, store the cell under the
next id, and register it as a dependent of each of its dependencies. -/
def create_compute (r : Reactor T) (dependencies : List CellId) (compute_func : List T → T) :
    Except CellId ComputeCellId × Reactor T :=
  match dependencies.find? (fun d => (r.value d).isNone) with
  | some d => (Except.error d, r)
  | none =>
    let values := getCellsValues r dependencies
    let cell : Cell T := Cell.Compute
      { dependencies := dependencies, func := compute_func, value := compute_func values }
    (Except.ok ⟨r.id + 1⟩,
      { r with id := r.id + 1,
               compute_cells := insertA r.compute_cells (r.id + 1) cell,
               dependencies :=
                 dependencies.foldl (fun m d => pushDep m d (CellId.Compute ⟨r.id + 1⟩))
                   r.dependencies })

/-- Ghost trace of the propagation engine: eval n records an evaluation of
the compute function of cell n (line 324), write n records a write of its
cached value (line 331). -/
inductive REvent where
  | eval : Nat → REvent
  | write : Nat → REvent
deriving DecidableEq

/-- Overwrite the cached value of a compute cell; the identity elsewhere
(body of the and_modify closure, lines 328 to 333). -/
def setCache (nv : T) : Cell T → Cell T
  | Cell.Compute cc => Cell.Compute { cc with value := nv }
  | c => c

/-- The for-loop body of Reactor::update_dependencies (lines 318 to 338),
parameterised over the recursive call rec.  For each registered dependent:
look it up; if it is a compute cell, evaluate its function on the current
dependency values; if the result equals the cached value, continue;
otherwise record the old cached value in the changed map, overwrite the
cache, and recurse into the dependents of that cell. -/
def update_loop (rec : Reactor T → CellId → List (Nat × T) → List REvent →
      Option (Reactor T × List (Nat × T) × List REvent)) :
    Reactor T → List CellId → List (Nat × T) → List REvent →
      Option (Reactor T × List (Nat × T) × List REvent)
  | r, [], ch, tr => some (r, ch, tr)
  | r, e :: rest, ch, tr =>
    match lookupA r.compute_cells e.get_id with
    | some (Cell.Compute cc) =>
      let nv := cc.func (getCellsValues r cc.dependencies)
      let tr1 := tr ++ [REvent.eval e.get_id]
      if nv = cc.value then update_loop rec r rest ch tr1
      else
        match rec { r with compute_cells := modifyA r.compute_cells e.get_id (setCache nv) }
            e (insertA ch e.get_id cc.value) (tr1 ++ [REvent.write e.get_id]) with
        | none => none
        | some (r2, ch2, tr2) => update_loop rec r2 rest ch2 tr2
    | _ => update_loop rec r rest ch tr

/-- Reactor::update_dependencies (lines 318 to 338) with fuel: iterate over
the dependents registered for cell_id, if any. -/
def update_deps : Nat → Reactor T → CellId → List (Nat × T) → List REvent →
    Option (Reactor T × List (Nat × T) × List REvent)
  | 0, _, _, _, _ => none
  | f + 1, r, cid, ch, tr =>
    match lookupA r.dependencies cid with
    | none => some (r, ch, tr)
    | some ids => update_loop (update_deps f) r ids ch tr

/-- Reactor::run_callbacks (lines 340 to 354): for every entry of the
changed map, re-read the current value; skip absent cells and cells whose
value equals the recorded previous value; otherwise invoke every registered
callback of the cell with the current value.  Returns the invocation list
(cell id, callback id, argument). -/
def run_callbacks (r : Reactor T) : List (Nat × T) → List (Nat × Nat × T)
  | [] => []
  | (n, prev) :: rest =>
    (match r.value (CellId.Compute ⟨n⟩) with
     | none => []
     | some v =>
       if v = prev then []
       else
         match lookupA r.callbacks n with
         | none => []
         | some entry => entry.callbacks.map (fun cb => (n, cb, v))) ++
    run_callbacks r rest

/-- The input overwrite inside set_value (lines 222 to 224). -/
def writeInput (r : Reactor T) (i : InputCellId) (v : T) : Reactor T :=
  { r with input_cells := insertA r.input_cells i.id (Cell.Input v) }

/-- Reactor::set_value (lines 221 to 232): false and no effect when the
input id is unknown; otherwise overwrite the stored value, propagate, run
the callbacks and return true.  The Option wrapper carries the fuel of the
propagation (none never occurs on well-formed states); the result carries
the ghost trace and the callback invocation list. -/
def set_value (r : Reactor T) (i : InputCellId) (new_value : T) :
    Option (Bool × Reactor T × List REvent × List (Nat × Nat × T)) :=
  match lookupA r.input_cells i.id with
  | some _ =>
    match update_deps (r.id + 1) (writeInput r i new_value) (CellId.Input i) [] [] with
    | none => none
    | some (r2, changed, tr) => some (true, r2, tr, run_callbacks r2 changed)
  | none => some (false, r, [], [])

/-- Reactor::check_if_compute_cell_exist (lines 307 to 309). -/
def check_if_compute_cell_exist (r : Reactor T) (cell : ComputeCellId) : Bool :=
  (lookupA r.compute_cells cell.id).isSome

/-- Reactor::add_callback (lines 246 to 277): none when the compute cell is
unknown; otherwise advance the per-cell counter (creating the entry with
counter 1 on first use) and register the new callback id. -/
def add_callback (r : Reactor T) (i : ComputeCellId) : Option CallbackId × Reactor T :=
  if check_if_compute_cell_exist r i then
    match lookupA r.callbacks i.id with
    | some entry =>
      let entry1 : CallbackEntry := ⟨entry.id + 1, entry.callbacks ++ [entry.id + 1]⟩
      (some ⟨entry.id + 1⟩, { r with callbacks := insertA r.callbacks i.id entry1 })
    | none =>
      let entry1 : CallbackEntry := ⟨1, [1]⟩
      (some ⟨1⟩, { r with callbacks := insertA r.callbacks i.id entry1 })
  else (none, r)

/-- Reactor::remove_callback (lines 284 to 305): NonexistentCell when the
compute cell is unknown, NonexistentCallback when it has no callback entry
or the entry does not contain the id, otherwise remove the id. -/
def remove_callback (r : Reactor T) (cell : ComputeCellId) (callback : CallbackId) :
    Except RemoveCallbackError Unit × Reactor T :=
  if check_if_compute_cell_exist r cell then
    match lookupA r.callbacks cell.id with
    | none => (Except.error RemoveCallbackError.NonexistentCallback, r)
    | some entry =>
      if callback.id ∈ entry.callbacks then
        let entry1 : CallbackEntry :=
          ⟨entry.id, entry.callbacks.filter (fun c => c ≠ callback.id)⟩
        (Except.ok (), { r with callbacks := insertA r.callbacks cell.id entry1 })
      else (Except.error RemoveCallbackError.NonexistentCallback, r)
  else (Except.error RemoveCallbackError.NonexistentCell, r)

/-- Number of ghost write events for cell n in a trace. -/
def countW (tr : List REvent) (n : Nat) : Nat := tr.count (REvent.write n)

/-- Number of ghost eval events for cell n in a trace. -/
def countE (tr : List REvent) (n : Nat) : Nat := tr.count (REvent.eval n)

/-- Number of callback invocations delivered to callback cb of cell n. -/
def evCount (evs : List (Nat × Nat × T)) (n cb : Nat) : Nat :=
  (evs.filter (fun e => e.1 == n && e.2.1 == cb)).length

end ReactorOps

section Invariants

variable {T : Type} [DecidableEq T]

/-- The cached value field of the compute cell stored at key n, if any. -/
def cacheAt (r : Reactor T) (n : Nat) : Option T :=
  match lookupA r.compute_cells n with
  | some (Cell.Compute cc) => some cc.value
  | _ => none

/-- Cell tag tests. -/
def isInputCell : Cell T → Bool
  | Cell.Input _ => true
  | Cell.Compute _ => false

/-- True exactly on Compute-tagged cell ids. -/
def isComputeId : CellId → Bool
  | CellId.Compute _ => true
  | CellId.Input _ => false

/-- The stored cell is a compute cell all of whose declared dependencies
have identifiers smaller than its own key. -/
def depsLtB (n : Nat) : Cell T → Bool
  | Cell.Input _ => false
  | Cell.Compute cc => cc.dependencies.all (fun d => decide (d.get_id < n))

/-- Every declared dependency of the stored compute cell has this cell
registered as a dependent in the dependency index dm. -/
def indexOKB (dm : List (CellId × List CellId)) (n : Nat) : Cell T → Bool
  | Cell.Input _ => true
  | Cell.Compute cc => cc.dependencies.all (fun d =>
      match lookupA dm d with
      | some l => decide (CellId.Compute ⟨n⟩ ∈ l)
      | none => false)

/-- Well-formedness of a reactor state.  Every state reachable through the
public API satisfies WF: input_cells holds only input cells, compute cells
only depend on cells with strictly smaller identifiers (cells existing at
their creation), all keys are bounded by the identifier counter, compute
keys are distinct, the dependency index points only upward to compute
cells, and it is complete for every stored compute cell. -/
def WF (r : Reactor T) : Prop :=
  r.input_cells.all (fun p => isInputCell p.2) = true ∧
  r.compute_cells.all (fun p => depsLtB p.1 p.2) = true ∧
  (r.input_cells.map Prod.fst ++ r.compute_cells.map Prod.fst).all
    (fun k => decide (k ≤ r.id)) = true ∧
  (r.compute_cells.map Prod.fst).Nodup ∧
  r.dependencies.all
    (fun p => p.2.all (fun e => isComputeId e && decide (p.1.get_id < e.get_id))) = true ∧
  r.compute_cells.all (fun p => indexOKB r.dependencies p.1 p.2) = true

/-- The compute cell is referentially consistent: its cached value equals
its function applied to the current values of its dependencies. -/
def cellConsistentB (r : Reactor T) : Cell T → Bool
  | Cell.Input _ => true
  | Cell.Compute cc => decide (cc.value = cc.func (getCellsValues r cc.dependencies))

/-- Referential consistency of every stored compute cell (the invariant of
the specification, claim C4). -/
def Consistent (r : Reactor T) : Prop :=
  r.compute_cells.all (fun p => cellConsistentB r p.2) = true

instance (r : Reactor T) : Decidable (WF r) := by
  unfold WF
  exact inferInstance

instance (r : Reactor T) : Decidable (Consistent r) := by
  unfold Consistent
  exact inferInstance

theorem WF.input_cell {r : Reactor T} (h : WF r) {n : Nat} {c : Cell T}
    (hl : lookupA r.input_cells n = some c) : ∃ v, c = Cell.Input v := by
  have hm := lookupA_mem hl
  have := (List.all_eq_true.mp h.1) _ hm
  cases c with
  | Input v => exact ⟨v, rfl⟩
  | Compute cc => simp [isInputCell] at this

theorem WF.compute_cell {r : Reactor T} (h : WF r) {n : Nat} {c : Cell T}
    (hl : lookupA r.compute_cells n = some c) :
    ∃ cc, c = Cell.Compute cc ∧ ∀ d ∈ cc.dependencies, d.get_id < n := by
  have hm := lookupA_mem hl
  have := (List.all_eq_true.mp h.2.1) _ hm
  cases c with
  | Input v => simp [depsLtB] at this
  | Compute cc =>
    refine ⟨cc, rfl, ?_⟩
    intro d hd
    have := (List.all_eq_true.mp this) _ hd
    simpa using this

theorem WF.key_le_input {r : Reactor T} (h : WF r) {n : Nat} {c : Cell T}
    (hl : lookupA r.input_cells n = some c) : n ≤ r.id := by
  have hm := lookupA_mem hl
  have hk : n ∈ r.input_cells.map Prod.fst ++ r.compute_cells.map Prod.fst :=
    List.mem_append_left _ (List.mem_map.mpr ⟨(n, c), hm, rfl⟩)
  have := (List.all_eq_true.mp h.2.2.1) _ hk
  simpa using this

theorem WF.key_le_compute {r : Reactor T} (h : WF r) {n : Nat} {c : Cell T}
    (hl : lookupA r.compute_cells n = some c) : n ≤ r.id := by
  have hm := lookupA_mem hl
  have hk : n ∈ r.input_cells.map Prod.fst ++ r.compute_cells.map Prod.fst :=
    List.mem_append_right _ (List.mem_map.mpr ⟨(n, c), hm, rfl⟩)
  have := (List.all_eq_true.mp h.2.2.1) _ hk
  simpa using this

theorem WF.nodupC {r : Reactor T} (h : WF r) : (r.compute_cells.map Prod.fst).Nodup :=
  h.2.2.2.1

theorem WF.rev_gt {r : Reactor T} (h : WF r) {cid : CellId} {l : List CellId}
    (hl : lookupA r.dependencies cid = some l) :
    ∀ e ∈ l, isComputeId e = true ∧ cid.get_id < e.get_id := by
  intro e he
  have hm := lookupA_mem hl
  have := (List.all_eq_true.mp h.2.2.2.2.1) _ hm
  have := (List.all_eq_true.mp this) _ he
  simp only [Bool.and_eq_true, decide_eq_true_eq] at this
  exact this

theorem WF.index {r : Reactor T} (h : WF r) {n : Nat} {cc : ComputeCell T}
    (hl : lookupA r.compute_cells n = some (Cell.Compute cc)) {d : CellId}
    (hd : d ∈ cc.dependencies) :
    ∃ l, lookupA r.dependencies d = some l ∧ CellId.Compute ⟨n⟩ ∈ l := by
  have hm := lookupA_mem hl
  have := (List.all_eq_true.mp h.2.2.2.2.2) _ hm
  have := (List.all_eq_true.mp this) _ hd
  cases hld : lookupA r.dependencies d with
  | none => rw [hld] at this; simp at this
  | some l =>
    rw [hld] at this
    simp only [decide_eq_true_eq] at this
    exact ⟨l, rfl, this⟩

theorem Consistent.cache {r : Reactor T} (h : Consistent r) {n : Nat} {cc : ComputeCell T}
    (hl : lookupA r.compute_cells n = some (Cell.Compute cc)) :
    cc.value = cc.func (getCellsValues r cc.dependencies) := by
  have hm := lookupA_mem hl
  have := (List.all_eq_true.mp h) _ hm
  simpa [cellConsistentB] using this

end Invariants

section FuelLemmas

variable {T : Type} [DecidableEq T]

/-- On a well-formed reactor, the dependency-value fold of get_value at any
fuel at least K computes exactly get_cells_values, whenever every listed
dependency has identifier below K.  This is the fuel-sufficiency theorem:
it makes the fuel invisible on well-formed states. -/
theorem depValues_eq_getCells {r : Reactor T} (hWF : WF r) :
    ∀ K ds g, (∀ d ∈ ds, d.get_id < K) → K ≤ g →
      depValues r (getValueF r g) ds = some (getCellsValues r ds) := by
  intro K
  induction K using Nat.strong_induction_on with
  | _ K IH =>
    intro ds
    induction ds with
    | nil => intro g _ _; simp [depValues, getCellsValues]
    | cons d rest ihrest =>
      intro g hb hKg
      have hd : d.get_id < K := hb d (List.mem_cons_self _ _)
      have hrest : ∀ e ∈ rest, e.get_id < K := fun e he => hb e (List.mem_cons_of_mem _ he)
      have hg1 : 1 ≤ g := le_trans (Nat.succ_le_of_lt (Nat.lt_of_le_of_lt (Nat.zero_le _) hd)) hKg
      cases hld : lookupA (cellMap r d) d.get_id with
      | none =>
        have hv : r.value d = none := by
          cases d with
          | Input i =>
            simp only [cellMap, CellId.get_id] at hld
            show (lookupA r.input_cells i.id).bind (getValueF r (r.id + 1)) = none
            rw [hld]; rfl
          | Compute j =>
            simp only [cellMap, CellId.get_id] at hld
            show (lookupA r.compute_cells j.id).bind (getValueF r (r.id + 1)) = none
            rw [hld]; rfl
        have hcv : getCellsValues r (d :: rest) = getCellsValues r rest := by
          simp [getCellsValues, hv]
        show (match lookupA (cellMap r d) d.get_id with
          | none => depValues r (getValueF r g) rest
          | some c =>
            match getValueF r g c with
            | none => none
            | some v => (depValues r (getValueF r g) rest).map (fun l => v :: l))
          = some (getCellsValues r (d :: rest))
        rw [hld, ihrest g hrest hKg, hcv]
      | some c =>
        have key : getValueF r g c = r.value d ∧ (r.value d).isSome := by
          cases d with
          | Input i =>
            simp only [cellMap, CellId.get_id] at hld
            obtain ⟨v, rfl⟩ := hWF.input_cell hld
            obtain ⟨g1, rfl⟩ := Nat.exists_eq_add_of_le hg1
            constructor
            · show getValueF r (1 + g1) (Cell.Input v)
                  = (lookupA r.input_cells i.id).bind (getValueF r (r.id + 1))
              rw [hld, Nat.add_comm 1 g1]
              rfl
            · show ((lookupA r.input_cells i.id).bind (getValueF r (r.id + 1))).isSome = true
              rw [hld]
              rfl
          | Compute j =>
            simp only [cellMap, CellId.get_id] at hld
            obtain ⟨cc, rfl, hdeps⟩ := hWF.compute_cell hld
            have hmK : j.id < K := hd
            obtain ⟨g1, rfl⟩ := Nat.exists_eq_add_of_le hg1
            have hg1m : j.id ≤ g1 := by omega
            have hrid : j.id ≤ r.id := hWF.key_le_compute hld
            have e1 : depValues r (getValueF r g1) cc.dependencies
                = some (getCellsValues r cc.dependencies) :=
              IH j.id hmK cc.dependencies g1 (by intro e he; exact hdeps e he) hg1m
            have e2 : depValues r (getValueF r r.id) cc.dependencies
                = some (getCellsValues r cc.dependencies) :=
              IH j.id hmK cc.dependencies r.id (by intro e he; exact hdeps e he) hrid
            constructor
            · show getValueF r (1 + g1) (Cell.Compute cc) = _
              rw [Nat.add_comm 1 g1]
              show (depValues r (getValueF r g1) cc.dependencies).map cc.func = _
              rw [e1]
              show _ = (lookupA r.compute_cells j.id).bind (getValueF r (r.id + 1))
              rw [hld]
              show _ = (depValues r (getValueF r r.id) cc.dependencies).map cc.func
              rw [e2]
            · show ((lookupA r.compute_cells j.id).bind (getValueF r (r.id + 1))).isSome = true
              rw [hld]
              show ((depValues r (getValueF r r.id) cc.dependencies).map cc.func).isSome = true
              rw [e2]
              rfl
        obtain ⟨hgv, hvs⟩ := key
        obtain ⟨w, hw⟩ := Option.isSome_iff_exists.mp hvs
        have hcv : getCellsValues r (d :: rest) = w :: getCellsValues r rest := by
          simp [getCellsValues, hw]
        show (match lookupA (cellMap r d) d.get_id with
          | none => depValues r (getValueF r g) rest
          | some c =>
            match getValueF r g c with
            | none => none
            | some v => (depValues r (getValueF r g) rest).map (fun l => v :: l))
          = some (getCellsValues r (d :: rest))
        rw [hld]
        show (match getValueF r g c with
          | none => none
          | some v => (depValues r (getValueF r g) rest).map (fun l => v :: l))
          = some (getCellsValues r (d :: rest))
        rw [hgv, hw]
        show (depValues r (getValueF r g) rest).map (fun l => w :: l)
          = some (getCellsValues r (d :: rest))
        rw [ihrest g hrest hKg, hcv]
        rfl

/-- The value of a stored compute cell is its function applied to the
current values of its dependencies (Reactor::value via Cell::get_value on
a well-formed state). -/
theorem value_compute_unfold {r : Reactor T} (hWF : WF r) {n : Nat} {cc : ComputeCell T}
    (hl : lookupA r.compute_cells n = some (Cell.Compute cc)) :
    r.value (CellId.Compute ⟨n⟩) = some (cc.func (getCellsValues r cc.dependencies)) := by
  obtain ⟨cc2, heq, hdeps⟩ := hWF.compute_cell hl
  injection heq with heq
  subst heq
  have e2 : depValues r (getValueF r r.id) cc.dependencies
      = some (getCellsValues r cc.dependencies) :=
    depValues_eq_getCells hWF n cc.dependencies r.id (by intro e he; exact hdeps e he)
      (hWF.key_le_compute hl)
  show (lookupA r.compute_cells n).bind (getValueF r (r.id + 1)) = _
  rw [hl]
  show (depValues r (getValueF r r.id) cc.dependencies).map cc.func = _
  rw [e2]
  rfl

/-- The value of a stored input cell is its stored payload. -/
theorem value_input_unfold {r : Reactor T} {i : Nat} {v : T}
    (hl : lookupA r.input_cells i = some (Cell.Input v)) :
    r.value (CellId.Input ⟨i⟩) = some v := by
  show (lookupA r.input_cells i).bind (getValueF r (r.id + 1)) = some v
  rw [hl]
  rfl

/-- On a well-formed state, a cell id that resolves in its map has a value. -/
theorem value_isSome_of_lookup {r : Reactor T} (hWF : WF r) {d : CellId} {c : Cell T}
    (hld : lookupA (cellMap r d) d.get_id = some c) : (r.value d).isSome := by
  cases d with
  | Input i =>
    simp only [cellMap, CellId.get_id] at hld
    obtain ⟨v, rfl⟩ := hWF.input_cell hld
    rw [value_input_unfold hld]
    rfl
  | Compute j =>
    simp only [cellMap, CellId.get_id] at hld
    obtain ⟨cc, rfl, _⟩ := hWF.compute_cell hld
    rw [value_compute_unfold hWF hld]
    rfl

/-- On a well-formed state, get_value at any fuel above the key of the
looked-up cell agrees with Reactor::value. -/
theorem getValueF_eq_value {r : Reactor T} (hWF : WF r) {d : CellId} {c : Cell T}
    (hld : lookupA (cellMap r d) d.get_id = some c) {g : Nat} (hg : d.get_id < g) :
    getValueF r g c = r.value d := by
  have hA := depValues_eq_getCells hWF (d.get_id + 1) [d] g
    (by intro e he; simp at he; subst he; omega) hg
  have hone : depValues r (getValueF r g) [d]
      = match getValueF r g c with
        | none => none
        | some v => some [v] := by
    show (match lookupA (cellMap r d) d.get_id with
      | none => depValues r (getValueF r g) []
      | some c =>
        match getValueF r g c with
        | none => none
        | some v => (depValues r (getValueF r g) []).map (fun l => v :: l))
      = _
    rw [hld]
    cases hgc : getValueF r g c with
    | none => simp [hgc, depValues]
    | some v => simp [hgc, depValues]
  rw [hone] at hA
  cases hgv : getValueF r g c with
  | none => rw [hgv] at hA; simp at hA
  | some v =>
    rw [hgv] at hA
    cases hv : r.value d with
    | none =>
      have : getCellsValues r [d] = [] := by simp [getCellsValues, hv]
      rw [this] at hA
      simp at hA
    | some w =>
      have : getCellsValues r [d] = [w] := by simp [getCellsValues, hv]
      rw [this] at hA
      simp at hA
      subst hA
      rfl

end FuelLemmas

section Shape

variable {T : Type} [DecidableEq T]

/-- Two cells with the same shape: equal input payloads, or compute cells
with the same dependency list and function (cached value free). -/
def cellShapeEq : Cell T → Cell T → Prop
  | Cell.Input a, Cell.Input b => a = b
  | Cell.Compute cc, Cell.Compute cc2 =>
      cc.dependencies = cc2.dependencies ∧ cc.func = cc2.func
  | _, _ => False

/-- Pointwise shape equality of two compute-cell stores. -/
def computeEq (l l2 : List (Nat × Cell T)) : Prop :=
  List.Forall₂ (fun p q => p.1 = q.1 ∧ cellShapeEq p.2 q.2) l l2

/-- Two reactors that agree on everything except the cached values of their
compute cells.  Propagation only rewrites caches, so every mid-propagation
state is ShapeEq to the post-write state. -/
def ShapeEq (r0 r : Reactor T) : Prop :=
  r.id = r0.id ∧ r.input_cells = r0.input_cells ∧ r.dependencies = r0.dependencies ∧
    r.callbacks = r0.callbacks ∧ computeEq r0.compute_cells r.compute_cells

theorem cellShapeEq_refl (c : Cell T) : cellShapeEq c c := by
  cases c with
  | Input v => exact rfl
  | Compute cc => exact ⟨rfl, rfl⟩

theorem cellShapeEq_trans {a b c : Cell T} (h1 : cellShapeEq a b) (h2 : cellShapeEq b c) :
    cellShapeEq a c := by
  cases a with
  | Input va =>
    cases b with
    | Input vb =>
      cases c with
      | Input vc => exact (show va = vb from h1).trans (show vb = vc from h2)
      | Compute cc => exact (show False from h2).elim
    | Compute cb => exact (show False from h1).elim
  | Compute ca =>
    cases b with
    | Input vb => exact (show False from h1).elim
    | Compute cb =>
      cases c with
      | Input vc => exact (show False from h2).elim
      | Compute cc =>
        obtain ⟨d1, f1⟩ := h1
        obtain ⟨d2, f2⟩ := h2
        exact ⟨d1.trans d2, f1.trans f2⟩

theorem computeEq_refl (l : List (Nat × Cell T)) : computeEq l l := by
  induction l with
  | nil => exact List.Forall₂.nil
  | cons p rest ih => exact List.Forall₂.cons ⟨rfl, cellShapeEq_refl p.2⟩ ih

theorem computeEq_trans {l1 l2 l3 : List (Nat × Cell T)}
    (h1 : computeEq l1 l2) (h2 : computeEq l2 l3) : computeEq l1 l3 := by
  induction h1 generalizing l3 with
  | nil => cases h2; exact List.Forall₂.nil
  | cons hab hrest ih =>
    cases h2 with
    | cons hbc hrest2 =>
      exact List.Forall₂.cons ⟨hab.1.trans hbc.1, cellShapeEq_trans hab.2 hbc.2⟩ (ih hrest2)

theorem ShapeEq_refl (r : Reactor T) : ShapeEq r r :=
  ⟨rfl, rfl, rfl, rfl, computeEq_refl _⟩

theorem ShapeEq_trans {r0 r1 r2 : Reactor T} (h1 : ShapeEq r0 r1) (h2 : ShapeEq r1 r2) :
    ShapeEq r0 r2 :=
  ⟨h2.1.trans h1.1, h2.2.1.trans h1.2.1, h2.2.2.1.trans h1.2.2.1,
    h2.2.2.2.1.trans h1.2.2.2.1, computeEq_trans h1.2.2.2.2 h2.2.2.2.2⟩

theorem computeEq_keys {l l2 : List (Nat × Cell T)} (h : computeEq l l2) :
    l.map Prod.fst = l2.map Prod.fst := by
  induction h with
  | nil => rfl
  | cons hab hrest ih => simp [hab.1, ih]

theorem computeEq_lookup_some {l l2 : List (Nat × Cell T)} (h : computeEq l l2) {n : Nat}
    {c : Cell T} (hl : lookupA l n = some c) :
    ∃ c2, lookupA l2 n = some c2 ∧ cellShapeEq c c2 := by
  induction h with
  | nil => simp at hl
  | cons hab hrest ih =>
    rename_i p q l1 l2'
    rw [show p = (p.1, p.2) from rfl, lookupA_cons] at hl
    by_cases hk : p.1 = n
    · rw [if_pos hk] at hl
      injection hl with hl
      subst hl
      refine ⟨q.2, ?_, hab.2⟩
      rw [show q = (q.1, q.2) from rfl, lookupA_cons, if_pos (hab.1 ▸ hk)]
    · rw [if_neg hk] at hl
      obtain ⟨c2, hc2, hrel⟩ := ih hl
      refine ⟨c2, ?_, hrel⟩
      rw [show q = (q.1, q.2) from rfl, lookupA_cons, if_neg (hab.1 ▸ hk)]
      exact hc2

theorem computeEq_lookup_some2 {l l2 : List (Nat × Cell T)} (h : computeEq l l2) {n : Nat}
    {c2 : Cell T} (hl : lookupA l2 n = some c2) :
    ∃ c, lookupA l n = some c ∧ cellShapeEq c c2 := by
  induction h with
  | nil => simp at hl
  | cons hab hrest ih =>
    rename_i p q l1 l2'
    rw [show q = (q.1, q.2) from rfl, lookupA_cons] at hl
    by_cases hk : q.1 = n
    · rw [if_pos hk] at hl
      injection hl with hl
      subst hl
      refine ⟨p.2, ?_, hab.2⟩
      rw [show p = (p.1, p.2) from rfl, lookupA_cons, if_pos (hab.1.symm ▸ hk)]
    · rw [if_neg hk] at hl
      obtain ⟨c, hc, hrel⟩ := ih hl
      refine ⟨c, ?_, hrel⟩
      rw [show p = (p.1, p.2) from rfl, lookupA_cons, if_neg (hab.1.symm ▸ hk)]
      exact hc

theorem computeEq_lookup_none {l l2 : List (Nat × Cell T)} (h : computeEq l l2) {n : Nat} :
    lookupA l n = none ↔ lookupA l2 n = none := by
  rw [lookupA_eq_none_iff, lookupA_eq_none_iff, computeEq_keys h]

theorem depValues_shape_of {r0 r : Reactor T} (h : ShapeEq r0 r) (f : Nat)
    (hgv : ∀ c c2, cellShapeEq c c2 → getValueF r0 f c = getValueF r f c2) :
    ∀ ds, depValues r0 (getValueF r0 f) ds = depValues r (getValueF r f) ds := by
  intro ds
  induction ds with
  | nil => rfl
  | cons d rest ih =>
    cases d with
    | Input i =>
      show (match lookupA r0.input_cells i.id with
        | none => depValues r0 (getValueF r0 f) rest
        | some c =>
          match getValueF r0 f c with
          | none => none
          | some v => (depValues r0 (getValueF r0 f) rest).map (fun l => v :: l))
        = (match lookupA r.input_cells i.id with
        | none => depValues r (getValueF r f) rest
        | some c =>
          match getValueF r f c with
          | none => none
          | some v => (depValues r (getValueF r f) rest).map (fun l => v :: l))
      rw [h.2.1]
      cases hl : lookupA r0.input_cells i.id with
      | none => exact ih
      | some c =>
        show (match getValueF r0 f c with
          | none => none
          | some v => (depValues r0 (getValueF r0 f) rest).map (fun l => v :: l))
          = (match getValueF r f c with
          | none => none
          | some v => (depValues r (getValueF r f) rest).map (fun l => v :: l))
        rw [hgv c c (cellShapeEq_refl c)]
        cases hgc : getValueF r f c with
        | none => simp [hgc]
        | some v => simp [hgc, ih]
    | Compute j =>
      show (match lookupA r0.compute_cells j.id with
        | none => depValues r0 (getValueF r0 f) rest
        | some c =>
          match getValueF r0 f c with
          | none => none
          | some v => (depValues r0 (getValueF r0 f) rest).map (fun l => v :: l))
        = (match lookupA r.compute_cells j.id with
        | none => depValues r (getValueF r f) rest
        | some c =>
          match getValueF r f c with
          | none => none
          | some v => (depValues r (getValueF r f) rest).map (fun l => v :: l))
      cases hl : lookupA r0.compute_cells j.id with
      | none =>
        rw [(computeEq_lookup_none h.2.2.2.2).mp hl]
        exact ih
      | some c =>
        obtain ⟨c2, hl2, hrel⟩ := computeEq_lookup_some h.2.2.2.2 hl
        rw [hl2]
        show (match getValueF r0 f c with
          | none => none
          | some v => (depValues r0 (getValueF r0 f) rest).map (fun l => v :: l))
          = (match getValueF r f c2 with
          | none => none
          | some v => (depValues r (getValueF r f) rest).map (fun l => v :: l))
        rw [hgv c c2 hrel]
        cases hgc : getValueF r f c2 with
        | none => simp [hgc]
        | some v => simp [hgc, ih]

theorem getValueF_shape {r0 r : Reactor T} (h : ShapeEq r0 r) : ∀ f,
    (∀ c c2, cellShapeEq c c2 → getValueF r0 f c = getValueF r f c2) ∧
    (∀ ds, depValues r0 (getValueF r0 f) ds = depValues r (getValueF r f) ds) := by
  intro f
  induction f with
  | zero =>
    have hgv : ∀ c c2 : Cell T, cellShapeEq c c2 → getValueF r0 0 c = getValueF r 0 c2 :=
      fun c c2 _ => rfl
    exact ⟨hgv, depValues_shape_of h 0 hgv⟩
  | succ f ihf =>
    have hgv : ∀ c c2, cellShapeEq c c2 → getValueF r0 (f + 1) c = getValueF r (f + 1) c2 := by
      intro c c2 hc
      cases c with
      | Input a =>
        cases c2 with
        | Input b => cases hc; rfl
        | Compute cc2 => exact absurd hc (by simp [cellShapeEq])
      | Compute cc =>
        cases c2 with
        | Input b => exact absurd hc (by simp [cellShapeEq])
        | Compute cc2 =>
          obtain ⟨hdeps, hfunc⟩ := hc
          show (depValues r0 (getValueF r0 f) cc.dependencies).map cc.func
            = (depValues r (getValueF r f) cc2.dependencies).map cc2.func
          rw [hdeps, hfunc, ihf.2]
    exact ⟨hgv, depValues_shape_of h (f + 1) hgv⟩

/-- Reactor::value only reads shapes and input payloads, never a cached
compute value: ShapeEq states give equal values everywhere. -/
theorem value_shape {r0 r : Reactor T} (h : ShapeEq r0 r) (i : CellId) :
    r0.value i = r.value i := by
  cases i with
  | Input c =>
    show (lookupA r0.input_cells c.id).bind (getValueF r0 (r0.id + 1))
      = (lookupA r.input_cells c.id).bind (getValueF r (r.id + 1))
    rw [h.2.1, h.1]
    cases lookupA r0.input_cells c.id with
    | none => rfl
    | some cell => exact (getValueF_shape h (r0.id + 1)).1 cell cell (cellShapeEq_refl cell)
  | Compute c =>
    show (lookupA r0.compute_cells c.id).bind (getValueF r0 (r0.id + 1))
      = (lookupA r.compute_cells c.id).bind (getValueF r (r.id + 1))
    rw [h.1]
    cases hl : lookupA r0.compute_cells c.id with
    | none => rw [(computeEq_lookup_none h.2.2.2.2).mp hl]; rfl
    | some cell =>
      obtain ⟨c2, hl2, hrel⟩ := computeEq_lookup_some h.2.2.2.2 hl
      rw [hl2]
      exact (getValueF_shape h (r0.id + 1)).1 cell c2 hrel

theorem getCellsValues_shape {r0 r : Reactor T} (h : ShapeEq r0 r) (ds : List CellId) :
    getCellsValues r0 ds = getCellsValues r ds := by
  unfold getCellsValues
  exact List.filterMap_congr (fun d _ => value_shape h d)

theorem cacheAt_none_shape {r0 r : Reactor T} (h : ShapeEq r0 r) (n : Nat) :
    cacheAt r0 n = none ↔ cacheAt r n = none := by
  unfold cacheAt
  cases hl : lookupA r0.compute_cells n with
  | none => rw [(computeEq_lookup_none h.2.2.2.2).mp hl]
  | some c =>
    obtain ⟨c2, hl2, hrel⟩ := computeEq_lookup_some h.2.2.2.2 hl
    rw [hl2]
    cases c with
    | Input a =>
      cases c2 with
      | Input b => simp
      | Compute cc2 => exact absurd hrel (by simp [cellShapeEq])
    | Compute cc =>
      cases c2 with
      | Input b => exact absurd hrel (by simp [cellShapeEq])
      | Compute cc2 => simp

end Shape

section ShapeTransport

variable {T : Type} [DecidableEq T]

theorem cellShapeEq_setCache {c c2 : Cell T} (h : cellShapeEq c c2) (nv : T) :
    cellShapeEq c (setCache nv c2) := by
  cases c with
  | Input a =>
    cases c2 with
    | Input b => exact h
    | Compute cc2 => exact (show False from h).elim
  | Compute cc =>
    cases c2 with
    | Input b => exact (show False from h).elim
    | Compute cc2 => exact ⟨h.1, h.2⟩

theorem computeEq_modifyA_setCache {l l2 : List (Nat × Cell T)} (h : computeEq l l2)
    (n : Nat) (nv : T) : computeEq l (modifyA l2 n (setCache nv)) := by
  induction h with
  | nil => exact List.Forall₂.nil
  | cons hab hrest ih =>
    rename_i p q l1 l2'
    rw [show q = (q.1, q.2) from rfl, modifyA_cons]
    by_cases hk : q.1 = n
    · rw [if_pos hk]
      exact List.Forall₂.cons ⟨hab.1, cellShapeEq_setCache hab.2 nv⟩ hrest
    · rw [if_neg hk]
      exact List.Forall₂.cons hab ih

theorem ShapeEq_modify_setCache {r0 r : Reactor T} (h : ShapeEq r0 r) (n : Nat) (nv : T) :
    ShapeEq r0 { r with compute_cells := modifyA r.compute_cells n (setCache nv) } :=
  ⟨h.1, h.2.1, h.2.2.1, h.2.2.2.1, computeEq_modifyA_setCache h.2.2.2.2 n nv⟩

theorem cacheAt_modify_self {r : Reactor T} {n : Nat} {cc : ComputeCell T}
    (hl : lookupA r.compute_cells n = some (Cell.Compute cc)) (nv : T) :
    cacheAt { r with compute_cells := modifyA r.compute_cells n (setCache nv) } n
      = some nv := by
  unfold cacheAt
  show (match lookupA (modifyA r.compute_cells n (setCache nv)) n with
    | some (Cell.Compute cc) => some cc.value
    | _ => none) = some nv
  rw [lookupA_modifyA_self, hl]
  rfl

theorem cacheAt_modify_ne {r : Reactor T} {n m : Nat} (hnm : n ≠ m) (nv : T) :
    cacheAt { r with compute_cells := modifyA r.compute_cells n (setCache nv) } m
      = cacheAt r m := by
  unfold cacheAt
  show (match lookupA (modifyA r.compute_cells n (setCache nv)) m with
    | some (Cell.Compute cc) => some cc.value
    | _ => none) = _
  rw [lookupA_modifyA_ne _ _ _ _ hnm]

theorem depsLtB_congr {c c2 : Cell T} (h : cellShapeEq c c2) (k : Nat) :
    depsLtB k c = depsLtB k c2 := by
  cases c with
  | Input a =>
    cases c2 with
    | Input b => rfl
    | Compute cc2 => exact (show False from h).elim
  | Compute cc =>
    cases c2 with
    | Input b => exact (show False from h).elim
    | Compute cc2 => show cc.dependencies.all _ = cc2.dependencies.all _; rw [h.1]

theorem indexOKB_congr {c c2 : Cell T} (h : cellShapeEq c c2)
    (dm : List (CellId × List CellId)) (k : Nat) : indexOKB dm k c = indexOKB dm k c2 := by
  cases c with
  | Input a =>
    cases c2 with
    | Input b => rfl
    | Compute cc2 => exact (show False from h).elim
  | Compute cc =>
    cases c2 with
    | Input b => exact (show False from h).elim
    | Compute cc2 => show cc.dependencies.all _ = cc2.dependencies.all _; rw [h.1]

theorem computeEq_all {l l2 : List (Nat × Cell T)} (h : computeEq l l2)
    (f : Nat → Cell T → Bool) (hf : ∀ k c c2, cellShapeEq c c2 → f k c = f k c2) :
    l.all (fun p => f p.1 p.2) = l2.all (fun p => f p.1 p.2) := by
  induction h with
  | nil => rfl
  | cons hab hrest ih =>
    rename_i p q l1 l2'
    show (f p.1 p.2 && l1.all _) = (f q.1 q.2 && l2'.all _)
    rw [hab.1, hf q.1 p.2 q.2 hab.2, ih]

/-- Well-formedness only depends on the shape of a reactor. -/
theorem WF_shape {r0 r : Reactor T} (h : ShapeEq r0 r) (hWF : WF r0) : WF r := by
  obtain ⟨hid, hin, hdep, hcb, hce⟩ := h
  obtain ⟨w1, w2, w3, w4, w5, w6⟩ := hWF
  refine ⟨?_, ?_, ?_, ?_, ?_, ?_⟩
  · rw [hin]; exact w1
  · rw [← computeEq_all hce _ (fun k c c2 hcc => depsLtB_congr hcc k)]; exact w2
  · rw [hin, hid, ← computeEq_keys hce]; exact w3
  · rw [← computeEq_keys hce]; exact w4
  · rw [hdep]; exact w5
  · rw [hdep,
      ← computeEq_all hce _ (fun k c c2 hcc => indexOKB_congr hcc r0.dependencies k)]
    exact w6

end ShapeTransport

section PropagationInvariants

variable {T : Type} [DecidableEq T]

/-- The final settled value of compute cell n, relative to the post-write
reference state r0: what Reactor::value returns for it. -/
def vinf (r0 : Reactor T) (n : Nat) : Option T := r0.value (CellId.Compute ⟨n⟩)

/-- During propagation, every evaluation of a compute function on the
current state yields the final settled value of that cell, because
Cell::get_value never reads a cache. -/
theorem nv_eq_vinf {r0 r : Reactor T} (hWF0 : WF r0) (h : ShapeEq r0 r) {n : Nat}
    {cc : ComputeCell T} (hl : lookupA r.compute_cells n = some (Cell.Compute cc)) :
    some (cc.func (getCellsValues r cc.dependencies)) = vinf r0 n := by
  obtain ⟨c0, hl0, hrel⟩ := computeEq_lookup_some2 h.2.2.2.2 hl
  cases c0 with
  | Input a => exact (show False from hrel).elim
  | Compute cc0 =>
    obtain ⟨hdeps, hfunc⟩ := hrel
    unfold vinf
    rw [value_compute_unfold hWF0 hl0, getCellsValues_shape h, hdeps, hfunc]

/-- The changed map tracks exactly the caches rewritten so far: a recorded
cell holds its pre-write cache in the map and its final value in the
current cache, and those differ; an unrecorded cell still holds its
pre-write cache. -/
def Tracks (r0 r : Reactor T) (ch : List (Nat × T)) : Prop :=
  (∀ n, (match lookupA ch n with
    | some p => cacheAt r0 n = some p ∧ cacheAt r n = vinf r0 n ∧ vinf r0 n ≠ some p
    | none => cacheAt r n = cacheAt r0 n)) ∧
  (ch.map Prod.fst).Nodup

/-- The ghost trace holds exactly one cache-write event for every recorded
changed cell and none for any other cell. -/
def TracksTr {γ : Type} (ch : List (Nat × γ)) (tr : List REvent) : Prop :=
  ∀ n, countW tr n = if (lookupA ch n).isSome then 1 else 0

/-- The invariant carried through update_dependencies. -/
def PreP (r0 r : Reactor T) (ch : List (Nat × T)) (tr : List REvent) : Prop :=
  ShapeEq r0 r ∧ Tracks r0 r ch ∧ TracksTr ch tr

/-- The cache of cell n, when present, already holds its final value. -/
def SettledAt (r0 r : Reactor T) (n : Nat) : Prop :=
  ∀ p, cacheAt r n = some p → vinf r0 n = some p

/-- Every registered dependent of cid is settled. -/
def DepsSettledFor (r0 r : Reactor T) (cid : CellId) : Prop :=
  ∀ l, lookupA r0.dependencies cid = some l → ∀ e ∈ l, SettledAt r0 r e.get_id

/-- The changed map only grows, bindings preserved. -/
def ChExt {γ : Type} (ch ch2 : List (Nat × γ)) : Prop :=
  ∀ n p, lookupA ch n = some p → lookupA ch2 n = some p

/-- Every cell newly recorded as changed by a call has all its registered
dependents settled by the end of that call. -/
def NewHandled (r0 r2 : Reactor T) (ch ch2 : List (Nat × T)) : Prop :=
  ∀ n, lookupA ch n = none → (lookupA ch2 n).isSome →
    DepsSettledFor r0 r2 (CellId.Compute ⟨n⟩)

theorem cache_settled_mono {r0 r r2 : Reactor T} {ch ch2 : List (Nat × T)}
    {tr tr2 : List REvent} (h1 : PreP r0 r ch tr) (h2 : PreP r0 r2 ch2 tr2)
    (he : ChExt ch ch2) {n : Nat} (hs : cacheAt r n = vinf r0 n) :
    cacheAt r2 n = vinf r0 n := by
  cases hc : lookupA ch n with
  | some p =>
    have := h2.2.1.1 n
    rw [he n p hc] at this
    exact this.2.1
  | none =>
    have h0 := h1.2.1.1 n
    rw [hc] at h0
    have hr0 : cacheAt r0 n = vinf r0 n := h0 ▸ hs
    cases hc2 : lookupA ch2 n with
    | some q =>
      have := h2.2.1.1 n
      rw [hc2] at this
      exact this.2.1
    | none =>
      have := h2.2.1.1 n
      rw [hc2] at this
      exact this.trans hr0

theorem settledAt_mono {r0 r r2 : Reactor T} {ch ch2 : List (Nat × T)}
    {tr tr2 : List REvent} (h1 : PreP r0 r ch tr) (h2 : PreP r0 r2 ch2 tr2)
    (he : ChExt ch ch2) {n : Nat} (hs : SettledAt r0 r n) : SettledAt r0 r2 n := by
  intro p hp
  cases hc2 : lookupA ch2 n with
  | some q =>
    have := h2.2.1.1 n
    rw [hc2] at this
    rw [← this.2.1, hp]
  | none =>
    have hr2 := h2.2.1.1 n
    rw [hc2] at hr2
    cases hc : lookupA ch n with
    | some q => rw [he n q hc] at hc2; cases hc2
    | none =>
      have hr := h1.2.1.1 n
      rw [hc] at hr
      exact hs p (hr.trans (hr2.symm.trans hp))

theorem depsSettled_mono {r0 r r2 : Reactor T} {ch ch2 : List (Nat × T)}
    {tr tr2 : List REvent} (h1 : PreP r0 r ch tr) (h2 : PreP r0 r2 ch2 tr2)
    (he : ChExt ch ch2) {cid : CellId} (hs : DepsSettledFor r0 r cid) :
    DepsSettledFor r0 r2 cid := by
  intro l hl e hel
  exact settledAt_mono h1 h2 he (hs l hl e hel)

theorem chExt_refl {γ : Type} (ch : List (Nat × γ)) : ChExt ch ch := fun _ _ h => h

theorem chExt_trans {γ : Type} {ch1 ch2 ch3 : List (Nat × γ)} (h1 : ChExt ch1 ch2)
    (h2 : ChExt ch2 ch3) : ChExt ch1 ch3 := fun n p h => h2 n p (h1 n p h)

end PropagationInvariants

section PropagationSpec

variable {T : Type} [DecidableEq T]

theorem cacheAt_of_lookup {r : Reactor T} {n : Nat} {cc : ComputeCell T}
    (hl : lookupA r.compute_cells n = some (Cell.Compute cc)) :
    cacheAt r n = some cc.value := by
  unfold cacheAt
  rw [hl]

theorem cacheAt_of_lookup_none {r : Reactor T} {n : Nat}
    (hl : lookupA r.compute_cells n = none) : cacheAt r n = none := by
  unfold cacheAt
  rw [hl]

theorem cacheAt_of_lookup_input {r : Reactor T} {n : Nat} {v : T}
    (hl : lookupA r.compute_cells n = some (Cell.Input v)) : cacheAt r n = none := by
  unfold cacheAt
  rw [hl]

theorem countW_append_eval (tr : List REvent) (m n : Nat) :
    countW (tr ++ [REvent.eval m]) n = countW tr n := by
  unfold countW
  rw [List.count_append]
  simp [List.count_cons, beq_iff_eq]

theorem countW_append_write (tr : List REvent) (m n : Nat) :
    countW (tr ++ [REvent.write m]) n = countW tr n + (if m = n then 1 else 0) := by
  unfold countW
  rw [List.count_append]
  by_cases h : m = n
  · subst h; simp [List.count_cons]
  · simp [List.count_cons, beq_iff_eq, h]

theorem TracksTr_eval {γ : Type} {ch : List (Nat × γ)} {tr : List REvent}
    (h : TracksTr ch tr) (m : Nat) : TracksTr ch (tr ++ [REvent.eval m]) := by
  intro n
  rw [countW_append_eval]
  exact h n

theorem TracksTr_write {γ : Type} {ch : List (Nat × γ)} {tr : List REvent}
    (h : TracksTr ch tr) {m : Nat} (hm : lookupA ch m = none) (g : γ) :
    TracksTr (insertA ch m g) (tr ++ [REvent.write m]) := by
  intro n
  rw [countW_append_write]
  by_cases hmn : m = n
  · subst hmn
    rw [lookupA_insertA_self]
    have := h m
    rw [hm] at this
    simp at this
    simp [this]
  · rw [lookupA_insertA_ne _ _ _ _ hmn]
    simp [hmn, h n]

theorem Tracks_write {r0 r : Reactor T} {ch : List (Nat × T)} (_hS : ShapeEq r0 r)
    (hT : Tracks r0 r ch) {n : Nat} {cc : ComputeCell T}
    (hle : lookupA r.compute_cells n = some (Cell.Compute cc))
    {nv : T} (hnv : some nv = vinf r0 n) (hne : nv ≠ cc.value)
    (hchn : lookupA ch n = none) :
    Tracks r0 { r with compute_cells := modifyA r.compute_cells n (setCache nv) }
      (insertA ch n cc.value) := by
  constructor
  · intro m
    by_cases hmn : n = m
    · subst hmn
      rw [lookupA_insertA_self]
      have ht := hT.1 n
      rw [hchn] at ht
      refine ⟨?_, ?_, ?_⟩
      · rw [← ht, cacheAt_of_lookup hle]
      · rw [cacheAt_modify_self hle, hnv]
      · rw [← hnv]
        intro hcontra
        injection hcontra with hcontra
        exact hne hcontra
    · rw [lookupA_insertA_ne _ _ _ _ hmn]
      have ht := hT.1 m
      cases hch : lookupA ch m with
      | some p =>
        rw [hch] at ht
        exact ⟨ht.1, by rw [cacheAt_modify_ne hmn]; exact ht.2.1, ht.2.2⟩
      | none =>
        rw [hch] at ht
        rw [cacheAt_modify_ne hmn]
        exact ht
  · have hkeys : n ∉ ch.map Prod.fst := lookupA_eq_none_iff.mp hchn
    rw [insertA_eq_append hchn, List.map_append]
    exact List.Nodup.append hT.2 (List.nodup_singleton _)
      (fun a ha hb => by simp at hb; subst hb; exact hkeys ha)

theorem chExt_insert {γ : Type} {ch : List (Nat × γ)} {n : Nat} (hchn : lookupA ch n = none)
    (g : γ) : ChExt ch (insertA ch n g) := by
  intro m p hm
  have hmn : n ≠ m := by
    intro h; subst h; rw [hchn] at hm; cases hm
  rw [lookupA_insertA_ne _ _ _ _ hmn]
  exact hm

/-- The equation of the for-loop body of update_dependencies. -/
theorem update_loop_cons (rec : Reactor T → CellId → List (Nat × T) → List REvent →
      Option (Reactor T × List (Nat × T) × List REvent)) (r : Reactor T) (e : CellId)
    (rest : List CellId) (ch : List (Nat × T)) (tr : List REvent) :
    update_loop rec r (e :: rest) ch tr
      = match lookupA r.compute_cells e.get_id with
        | some (Cell.Compute cc) =>
          let nv := cc.func (getCellsValues r cc.dependencies)
          let tr1 := tr ++ [REvent.eval e.get_id]
          if nv = cc.value then update_loop rec r rest ch tr1
          else
            match rec { r with compute_cells := modifyA r.compute_cells e.get_id (setCache nv) }
                e (insertA ch e.get_id cc.value) (tr1 ++ [REvent.write e.get_id]) with
            | none => none
            | some (r2, ch2, tr2) => update_loop rec r2 rest ch2 tr2
        | _ => update_loop rec r rest ch tr := rfl

/-- The compute-cell branch of the loop body, with the scrutinee resolved. -/
theorem update_loop_cons_compute (rec : Reactor T → CellId → List (Nat × T) → List REvent →
      Option (Reactor T × List (Nat × T) × List REvent)) {r : Reactor T} {e : CellId}
    (rest : List CellId) (ch : List (Nat × T)) (tr : List REvent) {cc : ComputeCell T}
    (hle : lookupA r.compute_cells e.get_id = some (Cell.Compute cc)) :
    update_loop rec r (e :: rest) ch tr
      = if cc.func (getCellsValues r cc.dependencies) = cc.value then
          update_loop rec r rest ch (tr ++ [REvent.eval e.get_id])
        else
          match rec { r with compute_cells := modifyA r.compute_cells e.get_id (setCache (cc.func (getCellsValues r cc.dependencies))) }
              e (insertA ch e.get_id cc.value)
              ((tr ++ [REvent.eval e.get_id]) ++ [REvent.write e.get_id]) with
          | none => none
          | some (r2, ch2, tr2) => update_loop rec r2 rest ch2 tr2 := by
  rw [update_loop_cons, hle]

/-- Specification of the for-loop of update_dependencies, parameterised by
a specification of the recursive call.  The loop terminates, keeps the
propagation invariant, extends the changed map, leaves every newly changed
cell with settled dependents, and settles every listed dependent. -/
theorem update_loop_spec {r0 : Reactor T} (hWF0 : WF r0) (f : Nat)
    (rec : Reactor T → CellId → List (Nat × T) → List REvent →
      Option (Reactor T × List (Nat × T) × List REvent))
    (hrec : ∀ r cid ch tr, PreP r0 r ch tr → cid.get_id ≤ r0.id →
      r0.id + 1 ≤ f + cid.get_id →
      ∃ r2 ch2 tr2, rec r cid ch tr = some (r2, ch2, tr2) ∧ PreP r0 r2 ch2 tr2 ∧
        ChExt ch ch2 ∧ NewHandled r0 r2 ch ch2 ∧ DepsSettledFor r0 r2 cid) :
    ∀ ds r ch tr, PreP r0 r ch tr → (∀ e ∈ ds, isComputeId e = true) →
      (∀ e ∈ ds, r0.id + 1 ≤ f + e.get_id) →
      ∃ r2 ch2 tr2, update_loop rec r ds ch tr = some (r2, ch2, tr2) ∧
        PreP r0 r2 ch2 tr2 ∧ ChExt ch ch2 ∧ NewHandled r0 r2 ch ch2 ∧
        ∀ e ∈ ds, SettledAt r0 r2 e.get_id := by
  intro ds
  induction ds with
  | nil =>
    intro r ch tr hPre _ _
    refine ⟨r, ch, tr, rfl, hPre, chExt_refl ch, ?_, ?_⟩
    · intro n h1 h2; rw [h1] at h2; cases h2
    · intro e he; cases he
  | cons e rest ih =>
    intro r ch tr hPre hcompAll hfuelAll
    have hcompRest : ∀ x ∈ rest, isComputeId x = true :=
      fun x hx => hcompAll x (List.mem_cons_of_mem _ hx)
    have hfuelRest : ∀ x ∈ rest, r0.id + 1 ≤ f + x.get_id :=
      fun x hx => hfuelAll x (List.mem_cons_of_mem _ hx)
    cases hle : lookupA r.compute_cells e.get_id with
    | none =>
      obtain ⟨r2, ch2, tr2, hstep, hPre2, hext, hnew, hset⟩ :=
        ih r ch tr hPre hcompRest hfuelRest
      have hsetE : SettledAt r0 r2 e.get_id := by
        intro p hp
        have h0 : cacheAt r0 e.get_id = none :=
          (cacheAt_none_shape hPre.1 e.get_id).mpr (cacheAt_of_lookup_none hle)
        have h2 : cacheAt r2 e.get_id = none := (cacheAt_none_shape hPre2.1 e.get_id).mp h0
        rw [h2] at hp; cases hp
      refine ⟨r2, ch2, tr2, ?_, hPre2, hext, hnew, ?_⟩
      · rw [update_loop_cons, hle]; exact hstep
      · intro x hx
        rcases List.mem_cons.mp hx with hx | hx
        · subst hx; exact hsetE
        · exact hset x hx
    | some c =>
      cases c with
      | Input v =>
        obtain ⟨r2, ch2, tr2, hstep, hPre2, hext, hnew, hset⟩ :=
          ih r ch tr hPre hcompRest hfuelRest
        have hsetE : SettledAt r0 r2 e.get_id := by
          intro p hp
          have h0 : cacheAt r0 e.get_id = none :=
            (cacheAt_none_shape hPre.1 e.get_id).mpr (cacheAt_of_lookup_input hle)
          have h2 : cacheAt r2 e.get_id = none := (cacheAt_none_shape hPre2.1 e.get_id).mp h0
          rw [h2] at hp; cases hp
        refine ⟨r2, ch2, tr2, ?_, hPre2, hext, hnew, ?_⟩
        · rw [update_loop_cons, hle]; exact hstep
        · intro x hx
          rcases List.mem_cons.mp hx with hx | hx
          · subst hx; exact hsetE
          · exact hset x hx
      | Compute cc =>
        have hnv : some (cc.func (getCellsValues r cc.dependencies)) = vinf r0 e.get_id :=
          nv_eq_vinf hWF0 hPre.1 hle
        by_cases heq : cc.func (getCellsValues r cc.dependencies) = cc.value
        · -- the recomputed value equals the cache: continue without recursing
          have hPre1 : PreP r0 r ch (tr ++ [REvent.eval e.get_id]) :=
            ⟨hPre.1, hPre.2.1, TracksTr_eval hPre.2.2 e.get_id⟩
          obtain ⟨r2, ch2, tr2, hstep, hPre2, hext, hnew, hset⟩ :=
            ih r ch (tr ++ [REvent.eval e.get_id]) hPre1 hcompRest hfuelRest
          have hsetE : SettledAt r0 r2 e.get_id := by
            refine settledAt_mono hPre1 hPre2 hext ?_
            intro p hp
            rw [cacheAt_of_lookup hle] at hp
            injection hp with hp
            rw [← hnv, heq, hp]
          refine ⟨r2, ch2, tr2, ?_, hPre2, hext, hnew, ?_⟩
          · rw [update_loop_cons_compute rec rest ch tr hle, if_pos heq]
            exact hstep
          · intro x hx
            rcases List.mem_cons.mp hx with hx | hx
            · subst hx; exact hsetE
            · exact hset x hx
        · -- the value changed: record, overwrite the cache, recurse
          have hchn : lookupA ch e.get_id = none := by
            cases hch : lookupA ch e.get_id with
            | none => rfl
            | some p =>
              exfalso
              have ht := hPre.2.1.1 e.get_id
              rw [hch] at ht
              have hcache := ht.2.1
              rw [cacheAt_of_lookup hle, ← hnv] at hcache
              injection hcache with hcache
              exact heq hcache.symm
          have hPre1 : PreP r0
              { r with compute_cells := modifyA r.compute_cells e.get_id (setCache (cc.func (getCellsValues r cc.dependencies))) }
              (insertA ch e.get_id cc.value)
              ((tr ++ [REvent.eval e.get_id]) ++ [REvent.write e.get_id]) :=
            ⟨ShapeEq_modify_setCache hPre.1 e.get_id _,
             Tracks_write hPre.1 hPre.2.1 hle hnv heq hchn,
             TracksTr_write (TracksTr_eval hPre.2.2 e.get_id) hchn cc.value⟩
          have hele : e.get_id ≤ r0.id := by
            obtain ⟨c0, hl0, _⟩ := computeEq_lookup_some2 hPre.1.2.2.2.2 hle
            exact hWF0.key_le_compute hl0
          obtain ⟨ra, cha, tra, hreceq, hPreA, hextA, hnewA, hdepsA⟩ :=
            hrec _ e _ _ hPre1 hele (hfuelAll e (List.mem_cons_self _ _))
          obtain ⟨r2, ch2, tr2, hstep2, hPre2, hext2, hnew2, hsetRest⟩ :=
            ih ra cha tra hPreA hcompRest hfuelRest
          have hextCh1 : ChExt ch (insertA ch e.get_id cc.value) := chExt_insert hchn _
          have hextFull : ChExt ch ch2 :=
            chExt_trans (chExt_trans hextCh1 hextA) hext2
          have hsetE : SettledAt r0 r2 e.get_id := by
            refine settledAt_mono hPreA hPre2 hext2 (settledAt_mono hPre1 hPreA hextA ?_)
            intro p hp
            rw [cacheAt_modify_self hle] at hp
            injection hp with hp
            rw [← hnv, hp]
          refine ⟨r2, ch2, tr2, ?_, hPre2, hextFull, ?_, ?_⟩
          · rw [update_loop_cons_compute rec rest ch tr hle, if_neg heq, hreceq]
            exact hstep2
          · -- NewHandled from ch to ch2
            intro n hn hsome2
            by_cases hne : n = e.get_id
            · subst hne
              have hcompE := hcompAll e (List.mem_cons_self _ _)
              cases e with
              | Input i => simp [isComputeId] at hcompE
              | Compute j =>
                exact depsSettled_mono hPreA hPre2 hext2 hdepsA
            · have hch1n : lookupA (insertA ch e.get_id cc.value) n = none := by
                rw [lookupA_insertA_ne _ _ _ _ (fun h => hne h.symm)]
                exact hn
              cases hcha : lookupA cha n with
              | some q =>
                refine depsSettled_mono hPreA hPre2 hext2 ?_
                exact hnewA n hch1n (by rw [hcha]; rfl)
              | none =>
                exact hnew2 n hcha hsome2
          · intro x hx
            rcases List.mem_cons.mp hx with hx | hx
            · subst hx; exact hsetE
            · exact hsetRest x hx

/-- Specification of Reactor::update_dependencies with fuel: given the
propagation invariant and enough fuel, the call succeeds, keeps the
invariant, extends the changed map, leaves every newly changed cell with
settled dependents, and settles every registered dependent of cid. -/
theorem update_deps_spec {r0 : Reactor T} (hWF0 : WF r0) :
    ∀ f r cid ch tr, PreP r0 r ch tr → cid.get_id ≤ r0.id →
      r0.id + 1 ≤ f + cid.get_id →
      ∃ r2 ch2 tr2, update_deps f r cid ch tr = some (r2, ch2, tr2) ∧ PreP r0 r2 ch2 tr2 ∧
        ChExt ch ch2 ∧ NewHandled r0 r2 ch ch2 ∧ DepsSettledFor r0 r2 cid := by
  intro f
  induction f with
  | zero =>
    intro r cid ch tr hPre hle hf
    exfalso
    omega
  | succ f ihf =>
    intro r cid ch tr hPre hle hf
    cases hld : lookupA r.dependencies cid with
    | none =>
      refine ⟨r, ch, tr, ?_, hPre, chExt_refl ch, ?_, ?_⟩
      · show (match lookupA r.dependencies cid with
          | none => some (r, ch, tr)
          | some ids => update_loop (update_deps f) r ids ch tr) = some (r, ch, tr)
        rw [hld]
      · intro n h1 h2; rw [h1] at h2; cases h2
      · intro l hl0
        rw [hPre.1.2.2.1] at hld
        rw [hl0] at hld
        cases hld
    | some ids =>
      have hld0 : lookupA r0.dependencies cid = some ids := by
        rw [← hPre.1.2.2.1]; exact hld
      have hcomp : ∀ e ∈ ids, isComputeId e = true :=
        fun e he => (hWF0.rev_gt hld0 e he).1
      have hfuel : ∀ e ∈ ids, r0.id + 1 ≤ f + e.get_id := by
        intro e he
        have := (hWF0.rev_gt hld0 e he).2
        omega
      obtain ⟨r2, ch2, tr2, hstep, hPre2, hext, hnew, hset⟩ :=
        update_loop_spec hWF0 f (update_deps f) ihf ids r ch tr hPre hcomp hfuel
      refine ⟨r2, ch2, tr2, ?_, hPre2, hext, hnew, ?_⟩
      · show (match lookupA r.dependencies cid with
          | none => some (r, ch, tr)
          | some ids => update_loop (update_deps f) r ids ch tr) = some (r2, ch2, tr2)
        rw [hld]
        exact hstep
      · intro l hl0
        rw [hld0] at hl0
        injection hl0 with hl0
        subst hl0
        exact fun e he => hset e he

end PropagationSpec

section GlobalSettled

variable {T : Type} [DecidableEq T]

theorem cacheAt_writeInput (r : Reactor T) (X : InputCellId) (v : T) (n : Nat) :
    cacheAt (writeInput r X v) n = cacheAt r n := rfl

theorem cacheAt_inv {r : Reactor T} {n : Nat} {p : T} (h : cacheAt r n = some p) :
    ∃ cc, lookupA r.compute_cells n = some (Cell.Compute cc) ∧ cc.value = p := by
  cases hl : lookupA r.compute_cells n with
  | none => rw [cacheAt_of_lookup_none hl] at h; cases h
  | some c =>
    cases c with
    | Input w => rw [cacheAt_of_lookup_input hl] at h; cases h
    | Compute cc =>
      rw [cacheAt_of_lookup hl] at h
      injection h with h
      exact ⟨cc, rfl, h⟩

theorem all_insertA {α β : Type} [DecidableEq α] {p : α × β → Bool} {l : List (α × β)}
    (h : l.all p = true) {a : α} {b : β} (hab : p (a, b) = true) :
    (insertA l a b).all p = true := by
  induction l with
  | nil => simpa using hab
  | cons q rest ih =>
    obtain ⟨k, w⟩ := q
    simp only [List.all_cons, Bool.and_eq_true] at h
    by_cases hk : k = a
    · subst hk
      rw [insertA_cons, if_pos rfl, List.all_cons, Bool.and_eq_true]
      exact ⟨hab, h.2⟩
    · rw [insertA_cons, if_neg hk, List.all_cons, Bool.and_eq_true]
      exact ⟨h.1, ih h.2⟩

/-- Overwriting an existing input cell preserves well-formedness. -/
theorem WF_writeInput {r : Reactor T} (hWF : WF r) {X : InputCellId} {c : Cell T}
    (hX : lookupA r.input_cells X.id = some c) (v : T) : WF (writeInput r X v) := by
  obtain ⟨w1, w2, w3, w4, w5, w6⟩ := hWF
  refine ⟨?_, w2, ?_, w4, w5, w6⟩
  · exact all_insertA w1 (by simp [isInputCell])
  · show ((insertA r.input_cells X.id (Cell.Input v)).map Prod.fst
        ++ r.compute_cells.map Prod.fst).all (fun k => decide (k ≤ r.id)) = true
    rw [map_fst_insertA_mem (by rw [hX]; rfl)]
    exact w3

theorem value_writeInput_input {r : Reactor T} (hWF : WF r) (X : InputCellId) (v : T)
    {i : InputCellId} (hne : i.id ≠ X.id) :
    (writeInput r X v).value (CellId.Input i) = r.value (CellId.Input i) := by
  show (lookupA (insertA r.input_cells X.id (Cell.Input v)) i.id).bind
      (getValueF (writeInput r X v) (r.id + 1))
    = (lookupA r.input_cells i.id).bind (getValueF r (r.id + 1))
  rw [lookupA_insertA_ne _ _ _ _ (fun h => hne h.symm)]
  cases hl : lookupA r.input_cells i.id with
  | none => rfl
  | some cell =>
    obtain ⟨w, rfl⟩ := hWF.input_cell hl
    rfl

theorem exists_value_ne_of_getCells_ne {r0 r : Reactor T} {ds : List CellId}
    (h : getCellsValues r0 ds ≠ getCellsValues r ds) :
    ∃ d ∈ ds, r0.value d ≠ r.value d := by
  by_contra hc
  push_neg at hc
  exact h (List.filterMap_congr (fun d hd => hc d hd))

/-- Once a propagation run has finished from the written input, every
compute cell whose cache is still live holds its final settled value.  The
proof is a strong induction over cell identifiers: a cell whose cache were
stale would have a dependency whose value changed, and that dependency,
being either the written input or a changed compute cell with a smaller
identifier, had all its registered dependents settled by the run. -/
theorem global_settled {r rf : Reactor T} {X : InputCellId} {v : T}
    {chf : List (Nat × T)} {trf : List REvent} {c : Cell T}
    (hWF : WF r) (hCons : Consistent r) (hX : lookupA r.input_cells X.id = some c)
    (hPref : PreP (writeInput r X v) rf chf trf)
    (hNew : ∀ n, (lookupA chf n).isSome →
      DepsSettledFor (writeInput r X v) rf (CellId.Compute ⟨n⟩))
    (hTop : DepsSettledFor (writeInput r X v) rf (CellId.Input X)) :
    ∀ n, SettledAt (writeInput r X v) rf n := by
  have hWF0 : WF (writeInput r X v) := WF_writeInput hWF hX v
  intro n
  induction n using Nat.strong_induction_on with
  | _ n IHn =>
    intro p hp
    cases hch : lookupA chf n with
    | some q =>
      have ht := hPref.2.1.1 n
      rw [hch] at ht
      exact ht.2.1.symm.trans hp
    | none =>
      have ht := hPref.2.1.1 n
      rw [hch] at ht
      have h0 : cacheAt (writeInput r X v) n = some p := ht.symm.trans hp
      have hcr : cacheAt r n = some p := h0
      obtain ⟨cc, hlc, hccv⟩ := cacheAt_inv hcr
      by_cases hv : vinf (writeInput r X v) n = some p
      · exact hv
      · exfalso
        have hl0 : lookupA (writeInput r X v).compute_cells n = some (Cell.Compute cc) := hlc
        have hvinf : vinf (writeInput r X v) n
            = some (cc.func (getCellsValues (writeInput r X v) cc.dependencies)) :=
          value_compute_unfold hWF0 hl0
        have hrv : cc.value = cc.func (getCellsValues r cc.dependencies) := hCons.cache hlc
        have hgne : getCellsValues (writeInput r X v) cc.dependencies
            ≠ getCellsValues r cc.dependencies := by
          intro hgc
          apply hv
          rw [hvinf, hgc, ← hrv, hccv]
        obtain ⟨d, hd, hdne⟩ := exists_value_ne_of_getCells_ne hgne
        obtain ⟨cc2, hc2, hdeps⟩ := hWF.compute_cell hlc
        injection hc2 with hc2
        subst hc2
        cases d with
        | Input i =>
          by_cases hix : i.id = X.id
          · have hiX : i = X := by
              cases i; cases X; simpa using hix
            subst hiX
            obtain ⟨l, hll, hmem⟩ := hWF.index hlc hd
            have hsn := hTop l hll (CellId.Compute ⟨n⟩) hmem
            exact hv (hsn p hp)
          · exact hdne (value_writeInput_input hWF X v hix)
        | Compute m =>
          have hmn : m.id < n := hdeps _ hd
          cases hlm : lookupA r.compute_cells m.id with
          | none =>
            apply hdne
            show (lookupA (writeInput r X v).compute_cells m.id).bind
                (getValueF (writeInput r X v) (r.id + 1))
              = (lookupA r.compute_cells m.id).bind (getValueF r (r.id + 1))
            rw [show (writeInput r X v).compute_cells = r.compute_cells from rfl, hlm]
            rfl
          | some cm =>
            obtain ⟨ccm, hcm, _⟩ := hWF.compute_cell hlm
            subst hcm
            have hrvm : r.value (CellId.Compute ⟨m.id⟩) = some ccm.value := by
              rw [value_compute_unfold hWF hlm, ← hCons.cache hlm]
            have hvm : vinf (writeInput r X v) m.id ≠ some ccm.value := by
              intro hcontra
              exact hdne (hcontra.trans hrvm.symm)
            have hsm : SettledAt (writeInput r X v) rf m.id := IHn m.id hmn
            have hmemch : (lookupA chf m.id).isSome := by
              cases hchm : lookupA chf m.id with
              | some q => rfl
              | none =>
                exfalso
                have htm := hPref.2.1.1 m.id
                rw [hchm] at htm
                have hcfm : cacheAt rf m.id = some ccm.value :=
                  htm.trans (cacheAt_of_lookup hlm)
                exact hvm (hsm ccm.value hcfm)
            obtain ⟨l, hll, hmemn⟩ := hWF.index hlc hd
            have hsn := hNew m.id hmemch l hll (CellId.Compute ⟨n⟩) hmemn
            exact hv (hsn p hp)

end GlobalSettled

section Callbacks

variable {T : Type} [DecidableEq T]

/-- Number of occurrences of callback id cb in the registry of cell n. -/
def cbCount (r : Reactor T) (n cb : Nat) : Nat :=
  match lookupA r.callbacks n with
  | some entry => entry.callbacks.count cb
  | none => 0

/-- Callback id cb is registered on cell n. -/
def cbMem (r : Reactor T) (n cb : Nat) : Prop :=
  match lookupA r.callbacks n with
  | some entry => cb ∈ entry.callbacks
  | none => False

theorem evCount_append (a b : List (Nat × Nat × T)) (n cb : Nat) :
    evCount (a ++ b) n cb = evCount a n cb + evCount b n cb := by
  unfold evCount
  rw [List.filter_append, List.length_append]

theorem evCount_map_self (l : List Nat) (n : Nat) (w : T) (cb : Nat) :
    evCount (l.map (fun c => (n, c, w))) n cb = l.count cb := by
  induction l with
  | nil => rfl
  | cons c rest ih =>
    unfold evCount at ih ⊢
    by_cases hc : c = cb
    · subst hc
      simp [List.filter_cons, List.count_cons, ih]
    · simp [List.filter_cons, List.count_cons, hc, ih]

theorem evCount_zero_of_ne (cb : Nat) : ∀ (evs : List (Nat × Nat × T)) (n : Nat),
    (∀ ev ∈ evs, ev.1 ≠ n) → evCount evs n cb = 0 := by
  intro evs
  induction evs with
  | nil => intro n _; rfl
  | cons e rest ih =>
    intro n h
    have hne : e.1 ≠ n := h e (List.mem_cons_self _ _)
    unfold evCount
    rw [List.filter_cons]
    have hfalse : (e.1 == n && e.2.1 == cb) = false := by simp [hne]
    simp only [hfalse]
    exact ih n (fun ev hev => h ev (List.mem_cons_of_mem _ hev))

/-- Characterisation of run_callbacks: assuming every entry of the changed
map names a cell whose current value exists and differs from the recorded
previous value (so the skip branches are dead, which set_value guarantees),
every emitted invocation names a changed cell, carries the current value of
that cell and a callback id registered on it, and the number of invocations
of callback cb on cell n is the registry multiplicity when n changed and
zero otherwise. -/
theorem run_callbacks_char (rf : Reactor T) :
    ∀ (ch : List (Nat × T)),
      (∀ n p, lookupA ch n = some p →
        ∃ w, rf.value (CellId.Compute ⟨n⟩) = some w ∧ w ≠ p) →
      (ch.map Prod.fst).Nodup →
      (∀ ev ∈ run_callbacks rf ch, ev.1 ∈ ch.map Prod.fst ∧
         rf.value (CellId.Compute ⟨ev.1⟩) = some ev.2.2 ∧ cbMem rf ev.1 ev.2.1) ∧
      (∀ n cb, evCount (run_callbacks rf ch) n cb
         = if (lookupA ch n).isSome then cbCount rf n cb else 0) := by
  intro ch
  induction ch with
  | nil =>
    intro _ _
    constructor
    · intro ev hev
      cases hev
    · intro n cb
      simp [run_callbacks, evCount]
  | cons q rest ih =>
    obtain ⟨n0, p0⟩ := q
    intro hvals hnd
    rw [List.map_cons, List.nodup_cons] at hnd
    have hn0 : n0 ∉ rest.map Prod.fst := hnd.1
    have hvalsrest : ∀ n p, lookupA rest n = some p →
        ∃ w, rf.value (CellId.Compute ⟨n⟩) = some w ∧ w ≠ p := by
      intro n p hnp
      apply hvals n p
      rw [lookupA_cons]
      by_cases hn : n0 = n
      · subst hn
        exfalso
        exact hn0 (List.mem_map.mpr ⟨(n0, p), lookupA_mem hnp, rfl⟩)
      · rw [if_neg hn]
        exact hnp
    obtain ⟨ihmem, ihcount⟩ := ih hvalsrest hnd.2
    obtain ⟨w, hw, hwp⟩ := hvals n0 p0 (by rw [lookupA_cons, if_pos rfl])
    have hrestn0 : lookupA rest n0 = none := lookupA_eq_none_iff.mpr hn0
    have hhead : run_callbacks rf ((n0, p0) :: rest)
        = (match lookupA rf.callbacks n0 with
           | none => []
           | some entry => entry.callbacks.map (fun cb => (n0, cb, w)))
          ++ run_callbacks rf rest := by
      show (match rf.value (CellId.Compute ⟨n0⟩) with
           | none => []
           | some v =>
             if v = p0 then []
             else
               match lookupA rf.callbacks n0 with
               | none => []
               | some entry => entry.callbacks.map (fun cb => (n0, cb, v)))
          ++ run_callbacks rf rest
        = _
      rw [hw]
      show (if w = p0 then []
            else
              match lookupA rf.callbacks n0 with
              | none => []
              | some entry => entry.callbacks.map (fun cb => (n0, cb, w)))
          ++ run_callbacks rf rest
        = _
      rw [if_neg hwp]
    constructor
    · intro ev hev
      rw [hhead] at hev
      rcases List.mem_append.mp hev with hev | hev
      · cases hcb : lookupA rf.callbacks n0 with
        | none => rw [hcb] at hev; cases hev
        | some entry =>
          rw [hcb] at hev
          obtain ⟨cb, hcbmem, heq⟩ := List.mem_map.mp hev
          subst heq
          refine ⟨List.mem_cons_self _ _, hw, ?_⟩
          show (match lookupA rf.callbacks n0 with
            | some entry => cb ∈ entry.callbacks
            | none => False)
          rw [hcb]
          exact hcbmem
      · obtain ⟨hmem, hval, hcbm⟩ := ihmem ev hev
        exact ⟨List.mem_cons_of_mem _ hmem, hval, hcbm⟩
    · intro n cb
      rw [hhead, evCount_append]
      by_cases hn : n0 = n
      · subst hn
        rw [show lookupA ((n0, p0) :: rest) n0 = some p0 from by rw [lookupA_cons, if_pos rfl]]
        rw [ihcount n0 cb, hrestn0]
        cases hcb : lookupA rf.callbacks n0 with
        | none =>
          show (0 : Nat) + 0 = cbCount rf n0 cb
          unfold cbCount
          rw [hcb]
        | some entry =>
          show evCount (entry.callbacks.map (fun cb => (n0, cb, w))) n0 cb + 0
            = cbCount rf n0 cb
          rw [evCount_map_self]
          unfold cbCount
          rw [hcb]
          rfl
      · rw [show lookupA ((n0, p0) :: rest) n = lookupA rest n from by rw [lookupA_cons, if_neg hn]]
        rw [ihcount n cb]
        have hzero : evCount (match lookupA rf.callbacks n0 with
           | none => ([] : List (Nat × Nat × T))
           | some entry => entry.callbacks.map (fun cb => (n0, cb, w))) n cb = 0 := by
          apply evCount_zero_of_ne
          intro ev hev
          cases hcb : lookupA rf.callbacks n0 with
          | none => rw [hcb] at hev; cases hev
          | some entry =>
            rw [hcb] at hev
            obtain ⟨cb2, _, heq⟩ := List.mem_map.mp hev
            subst heq
            exact hn
        rw [hzero, Nat.zero_add]

end Callbacks

section SetValueSpec

variable {T : Type} [DecidableEq T]

theorem Consistent.value {r : Reactor T} (hWF : WF r) (hC : Consistent r) {n : Nat}
    {cc : ComputeCell T} (hl : lookupA r.compute_cells n = some (Cell.Compute cc)) :
    r.value (CellId.Compute ⟨n⟩) = some cc.value := by
  rw [value_compute_unfold hWF hl, ← hC.cache hl]

/-- The master specification of Reactor::set_value on a well-formed,
consistent state with an existing input cell: the call succeeds and returns
true; the result differs from the input-overwritten state only in compute
caches; it is again well-formed and consistent; queries on it read the
fully settled graph; and the changed map driving the callback run holds
exactly the compute cells whose value changed, each once, bound to the
pre-write value, with the ghost trace holding exactly one cache write per
changed cell. -/
theorem set_value_spec {r : Reactor T} {X : InputCellId} {v : T} {c : Cell T}
    (hWF : WF r) (hCons : Consistent r) (hX : lookupA r.input_cells X.id = some c) :
    ∃ rf chf trf,
      set_value r X v = some (true, rf, trf, run_callbacks rf chf) ∧
      ShapeEq (writeInput r X v) rf ∧ WF rf ∧ Consistent rf ∧
      (∀ i, rf.value i = (writeInput r X v).value i) ∧
      (chf.map Prod.fst).Nodup ∧
      (∀ n, (lookupA chf n).isSome ↔
        rf.value (CellId.Compute ⟨n⟩) ≠ r.value (CellId.Compute ⟨n⟩)) ∧
      (∀ n p, lookupA chf n = some p → r.value (CellId.Compute ⟨n⟩) = some p) ∧
      (∀ n p, lookupA chf n = some p →
        ∃ w, rf.value (CellId.Compute ⟨n⟩) = some w ∧ w ≠ p) ∧
      (∀ n, countW trf n = if (lookupA chf n).isSome then 1 else 0) := by
  have hWF0 : WF (writeInput r X v) := WF_writeInput hWF hX v
  have hPre0 : PreP (writeInput r X v) (writeInput r X v) [] [] := by
    refine ⟨ShapeEq_refl _, ⟨?_, List.nodup_nil⟩, ?_⟩
    · intro n; exact rfl
    · intro n; rfl
  have hXle : X.id ≤ r.id := hWF.key_le_input hX
  obtain ⟨rf, chf, trf, hstep, hPref, hext, hnew, hdeps⟩ :=
    update_deps_spec hWF0 (r.id + 1) (writeInput r X v) (CellId.Input X) [] [] hPre0
      hXle (by show r.id + 1 ≤ r.id + 1 + X.id; omega)
  have hNewTotal : ∀ n, (lookupA chf n).isSome →
      DepsSettledFor (writeInput r X v) rf (CellId.Compute ⟨n⟩) := by
    intro n hs
    exact hnew n rfl hs
  have hGS : ∀ n, SettledAt (writeInput r X v) rf n :=
    global_settled hWF hCons hX hPref hNewTotal hdeps
  have hVal : ∀ i, rf.value i = (writeInput r X v).value i :=
    fun i => (value_shape hPref.1 i).symm
  have hWFf : WF rf := WF_shape hPref.1 hWF0
  have hConsf : Consistent rf := by
    show rf.compute_cells.all (fun p => cellConsistentB rf p.2) = true
    apply List.all_eq_true.mpr
    intro p hp
    obtain ⟨n, cell⟩ := p
    cases cell with
    | Input w => rfl
    | Compute cc =>
      have hl : lookupA rf.compute_cells n = some (Cell.Compute cc) :=
        lookupA_of_mem_nodup hp hWFf.nodupC
      have hset := hGS n cc.value (cacheAt_of_lookup hl)
      have hnv := nv_eq_vinf hWF0 hPref.1 hl
      show cellConsistentB rf (Cell.Compute cc) = true
      unfold cellConsistentB
      rw [decide_eq_true_eq]
      injection hnv.trans hset with h
      exact h.symm
  have hchar : ∀ n, (lookupA chf n).isSome ↔
      rf.value (CellId.Compute ⟨n⟩) ≠ r.value (CellId.Compute ⟨n⟩) := by
    intro n
    cases hlc : lookupA r.compute_cells n with
    | none =>
      constructor
      · intro hs
        exfalso
        obtain ⟨p, hp⟩ := Option.isSome_iff_exists.mp hs
        have ht := hPref.2.1.1 n
        rw [hp] at ht
        have hc0 : cacheAt r n = some p := ht.1
        rw [cacheAt_of_lookup_none hlc] at hc0
        cases hc0
      · intro hne
        exfalso
        apply hne
        rw [hVal]
        show (lookupA (writeInput r X v).compute_cells n).bind
            (getValueF (writeInput r X v) (r.id + 1))
          = (lookupA r.compute_cells n).bind (getValueF r (r.id + 1))
        rw [show (writeInput r X v).compute_cells = r.compute_cells from rfl, hlc]
        rfl
    | some cell =>
      obtain ⟨cc, hc2, _⟩ := hWF.compute_cell hlc
      subst hc2
      have hrv : r.value (CellId.Compute ⟨n⟩) = some cc.value :=
        Consistent.value hWF hCons hlc
      have hfv : rf.value (CellId.Compute ⟨n⟩) = vinf (writeInput r X v) n := hVal _
      constructor
      · intro hs
        obtain ⟨p, hp⟩ := Option.isSome_iff_exists.mp hs
        have ht := hPref.2.1.1 n
        rw [hp] at ht
        have hp0 : cacheAt r n = some p := ht.1
        have hpv : p = cc.value := by
          rw [cacheAt_of_lookup hlc] at hp0
          injection hp0 with h
          exact h.symm
        subst hpv
        rw [hrv, hfv]
        exact ht.2.2
      · intro hne
        cases hch : lookupA chf n with
        | some q => rfl
        | none =>
          exfalso
          apply hne
          have ht := hPref.2.1.1 n
          rw [hch] at ht
          have hcf : cacheAt rf n = some cc.value := ht.trans (cacheAt_of_lookup hlc)
          rw [hrv, hfv, hGS n cc.value hcf]
  have hprev : ∀ n p, lookupA chf n = some p →
      r.value (CellId.Compute ⟨n⟩) = some p := by
    intro n p hp
    have ht := hPref.2.1.1 n
    rw [hp] at ht
    have hp0 : cacheAt r n = some p := ht.1
    obtain ⟨cc, hlc, hcv⟩ := cacheAt_inv hp0
    rw [Consistent.value hWF hCons hlc, hcv]
  have hvals : ∀ n p, lookupA chf n = some p →
      ∃ w, rf.value (CellId.Compute ⟨n⟩) = some w ∧ w ≠ p := by
    intro n p hp
    have ht := hPref.2.1.1 n
    rw [hp] at ht
    have hp0 : cacheAt r n = some p := ht.1
    obtain ⟨cc, hlc, hcv⟩ := cacheAt_inv hp0
    obtain ⟨c2, hl2, hrel⟩ := computeEq_lookup_some hPref.1.2.2.2.2 hlc
    cases c2 with
    | Input w => exact (show False from hrel).elim
    | Compute cc2 =>
      refine ⟨cc2.value, Consistent.value hWFf hConsf hl2, ?_⟩
      intro hcontra
      apply ht.2.2
      exact ht.2.1.symm.trans (by rw [cacheAt_of_lookup hl2, hcontra])
  refine ⟨rf, chf, trf, ?_, hPref.1, hWFf, hConsf, hVal, hPref.2.1.2, hchar, hprev, hvals,
    hPref.2.2⟩
  show (match lookupA r.input_cells X.id with
    | some _ =>
      match update_deps (r.id + 1) (writeInput r X v) (CellId.Input X) [] [] with
      | none => none
      | some (r2, changed, tr) => some (true, r2, tr, run_callbacks r2 changed)
    | none => some (false, r, [], [])) = some (true, rf, trf, run_callbacks rf chf)
  rw [hX]
  show (match update_deps (r.id + 1) (writeInput r X v) (CellId.Input X) [] [] with
    | none => none
    | some (r2, changed, tr) => some (true, r2, tr, run_callbacks r2 changed))
    = some (true, rf, trf, run_callbacks rf chf)
  rw [hstep]

end SetValueSpec

section AgreeBelow

variable {T : Type} [DecidableEq T]

theorem lookupA_append_some {α β : Type} [DecidableEq α] {l l2 : List (α × β)} {k : α}
    {v : β} (h : lookupA l k = some v) : lookupA (l ++ l2) k = some v := by
  induction l with
  | nil => cases h
  | cons p rest ih =>
    obtain ⟨k0, v0⟩ := p
    rw [lookupA_cons] at h
    by_cases hk : k0 = k
    · rw [if_pos hk] at h
      rw [List.cons_append, lookupA_cons, if_pos hk]
      exact h
    · rw [if_neg hk] at h
      rw [List.cons_append, lookupA_cons, if_neg hk]
      exact ih h

theorem lookupA_append_none {α β : Type} [DecidableEq α] {l : List (α × β)} {k : α}
    (h : lookupA l k = none) (l2 : List (α × β)) : lookupA (l ++ l2) k = lookupA l2 k := by
  induction l with
  | nil => rfl
  | cons p rest ih =>
    obtain ⟨k0, v0⟩ := p
    rw [lookupA_cons] at h
    by_cases hk : k0 = k
    · rw [if_pos hk] at h; cases h
    · rw [if_neg hk] at h
      rw [List.cons_append, lookupA_cons, if_neg hk]
      exact ih h

theorem lookupA_append_fresh {α β : Type} [DecidableEq α] {l : List (α × β)} {k0 m : α}
    (hne : k0 ≠ m) (v : β) : lookupA (l ++ [(k0, v)]) m = lookupA l m := by
  cases hl : lookupA l m with
  | some w => exact lookupA_append_some hl
  | none =>
    rw [lookupA_append_none hl]
    rw [lookupA_cons, if_neg hne]
    rfl

theorem value_isSome_key_le {r : Reactor T} (hWF : WF r) {d : CellId}
    (h : (r.value d).isSome) : d.get_id ≤ r.id := by
  cases d with
  | Input i =>
    cases hl : lookupA r.input_cells i.id with
    | none =>
      exfalso
      have : r.value (CellId.Input i) = none := by
        show (lookupA r.input_cells i.id).bind (getValueF r (r.id + 1)) = none
        rw [hl]; rfl
      rw [this] at h; cases h
    | some c => exact hWF.key_le_input hl
  | Compute j =>
    cases hl : lookupA r.compute_cells j.id with
    | none =>
      exfalso
      have : r.value (CellId.Compute j) = none := by
        show (lookupA r.compute_cells j.id).bind (getValueF r (r.id + 1)) = none
        rw [hl]; rfl
      rw [this] at h; cases h
    | some c => exact hWF.key_le_compute hl

/-- Every dependency of the cell lies below K. -/
def cellDepsBelow (K : Nat) : Cell T → Prop
  | Cell.Input _ => True
  | Cell.Compute cc => ∀ d ∈ cc.dependencies, d.get_id < K

/-- Evaluation only consults bindings at keys below K when every involved
dependency id lies below K; two reactors agreeing there evaluate alike. -/
theorem getValueF_agree_below {r r2 : Reactor T} (hWF : WF r) (K : Nat)
    (hagree : ∀ m, m < K → lookupA r.input_cells m = lookupA r2.input_cells m ∧
      lookupA r.compute_cells m = lookupA r2.compute_cells m) :
    ∀ f, (∀ c, cellDepsBelow K c → getValueF r f c = getValueF r2 f c) ∧
      (∀ ds, (∀ d ∈ ds, d.get_id < K) →
        depValues r (getValueF r f) ds = depValues r2 (getValueF r2 f) ds) := by
  intro f
  induction f with
  | zero =>
    have hgv : ∀ c : Cell T, cellDepsBelow K c → getValueF r 0 c = getValueF r2 0 c :=
      fun c _ => rfl
    refine ⟨hgv, ?_⟩
    intro ds
    induction ds with
    | nil => intro _; rfl
    | cons d rest ihd =>
      intro hb
      have hd := hb d (List.mem_cons_self _ _)
      have hrest := fun e he => hb e (List.mem_cons_of_mem _ he)
      have hmap : lookupA (cellMap r d) d.get_id = lookupA (cellMap r2 d) d.get_id := by
        cases d with
        | Input i => exact (hagree _ hd).1
        | Compute j => exact (hagree _ hd).2
      show (match lookupA (cellMap r d) d.get_id with
        | none => depValues r (getValueF r 0) rest
        | some c =>
          match getValueF r 0 c with
          | none => none
          | some v => (depValues r (getValueF r 0) rest).map (fun l => v :: l))
        = (match lookupA (cellMap r2 d) d.get_id with
        | none => depValues r2 (getValueF r2 0) rest
        | some c =>
          match getValueF r2 0 c with
          | none => none
          | some v => (depValues r2 (getValueF r2 0) rest).map (fun l => v :: l))
      rw [← hmap]
      cases lookupA (cellMap r d) d.get_id with
      | none => exact ihd hrest
      | some c => rfl
  | succ f ihf =>
    have hgv : ∀ c : Cell T, cellDepsBelow K c →
        getValueF r (f + 1) c = getValueF r2 (f + 1) c := by
      intro c hc
      cases c with
      | Input w => rfl
      | Compute cc =>
        show (depValues r (getValueF r f) cc.dependencies).map cc.func
          = (depValues r2 (getValueF r2 f) cc.dependencies).map cc.func
        rw [ihf.2 cc.dependencies hc]
    refine ⟨hgv, ?_⟩
    intro ds
    induction ds with
    | nil => intro _; rfl
    | cons d rest ihd =>
      intro hb
      have hd := hb d (List.mem_cons_self _ _)
      have hrest := fun e he => hb e (List.mem_cons_of_mem _ he)
      have hmap : lookupA (cellMap r d) d.get_id = lookupA (cellMap r2 d) d.get_id := by
        cases d with
        | Input i => exact (hagree _ hd).1
        | Compute j => exact (hagree _ hd).2
      show (match lookupA (cellMap r d) d.get_id with
        | none => depValues r (getValueF r (f + 1)) rest
        | some c =>
          match getValueF r (f + 1) c with
          | none => none
          | some v => (depValues r (getValueF r (f + 1)) rest).map (fun l => v :: l))
        = (match lookupA (cellMap r2 d) d.get_id with
        | none => depValues r2 (getValueF r2 (f + 1)) rest
        | some c =>
          match getValueF r2 (f + 1) c with
          | none => none
          | some v => (depValues r2 (getValueF r2 (f + 1)) rest).map (fun l => v :: l))
      rw [← hmap]
      cases hlc : lookupA (cellMap r d) d.get_id with
      | none => exact ihd hrest
      | some c =>
        have hbelow : cellDepsBelow K c := by
          cases d with
          | Input i =>
            simp only [cellMap, CellId.get_id] at hlc
            obtain ⟨w, rfl⟩ := hWF.input_cell hlc
            exact trivial
          | Compute j =>
            simp only [cellMap, CellId.get_id] at hlc
            obtain ⟨cc, rfl, hdeps⟩ := hWF.compute_cell hlc
            exact fun e he => lt_trans (hdeps e he) hd
        show (match getValueF r (f + 1) c with
          | none => none
          | some v => (depValues r (getValueF r (f + 1)) rest).map (fun l => v :: l))
          = (match getValueF r2 (f + 1) c with
          | none => none
          | some v => (depValues r2 (getValueF r2 (f + 1)) rest).map (fun l => v :: l))
        rw [hgv c hbelow]
        cases hgc : getValueF r2 (f + 1) c with
        | none => simp [hgc]
        | some w => simp [hgc, ihd hrest]

/-- Values of cells with identifiers below K agree between two well-formed
reactors that agree on all bindings below K. -/
theorem value_agree_below {r r2 : Reactor T} (hWF : WF r) (hWF2 : WF r2) (K : Nat)
    (hagree : ∀ m, m < K → lookupA r.input_cells m = lookupA r2.input_cells m ∧
      lookupA r.compute_cells m = lookupA r2.compute_cells m)
    {d : CellId} (hd : d.get_id < K) : r.value d = r2.value d := by
  have hmap : lookupA (cellMap r d) d.get_id = lookupA (cellMap r2 d) d.get_id := by
    cases d with
    | Input i => exact (hagree _ hd).1
    | Compute j => exact (hagree _ hd).2
  cases hlc : lookupA (cellMap r d) d.get_id with
  | none =>
    have hlc2 : lookupA (cellMap r2 d) d.get_id = none := hmap ▸ hlc
    cases d with
    | Input i =>
      simp only [cellMap, CellId.get_id] at hlc hlc2
      show (lookupA r.input_cells i.id).bind (getValueF r (r.id + 1))
        = (lookupA r2.input_cells i.id).bind (getValueF r2 (r2.id + 1))
      rw [hlc, hlc2]
      rfl
    | Compute j =>
      simp only [cellMap, CellId.get_id] at hlc hlc2
      show (lookupA r.compute_cells j.id).bind (getValueF r (r.id + 1))
        = (lookupA r2.compute_cells j.id).bind (getValueF r2 (r2.id + 1))
      rw [hlc, hlc2]
      rfl
  | some c =>
    have hlc2 : lookupA (cellMap r2 d) d.get_id = some c := hmap ▸ hlc
    have h1 : getValueF r (d.get_id + 1) c = r.value d :=
      getValueF_eq_value hWF hlc (Nat.lt_succ_self _)
    have h2 : getValueF r2 (d.get_id + 1) c = r2.value d :=
      getValueF_eq_value hWF2 hlc2 (Nat.lt_succ_self _)
    have hbelow : cellDepsBelow K c := by
      cases d with
      | Input i =>
        simp only [cellMap, CellId.get_id] at hlc
        obtain ⟨w, rfl⟩ := hWF.input_cell hlc
        exact trivial
      | Compute j =>
        simp only [cellMap, CellId.get_id] at hlc
        obtain ⟨cc, rfl, hdeps⟩ := hWF.compute_cell hlc
        exact fun e he => lt_trans (hdeps e he) hd
    rw [← h1, ← h2, (getValueF_agree_below hWF K hagree (d.get_id + 1)).1 c hbelow]

end AgreeBelow

section CreatePreserves

variable {T : Type} [DecidableEq T]

theorem getCellsValues_agree_below {r r2 : Reactor T} (hWF : WF r) (hWF2 : WF r2) (K : Nat)
    (hagree : ∀ m, m < K → lookupA r.input_cells m = lookupA r2.input_cells m ∧
      lookupA r.compute_cells m = lookupA r2.compute_cells m)
    {ds : List CellId} (hds : ∀ d ∈ ds, d.get_id < K) :
    getCellsValues r ds = getCellsValues r2 ds := by
  unfold getCellsValues
  exact List.filterMap_congr
    (fun d hd => value_agree_below hWF hWF2 K hagree (hds d hd))

theorem lookupA_fresh_input {r : Reactor T} (hWF : WF r) :
    lookupA r.input_cells (r.id + 1) = none := by
  cases h : lookupA r.input_cells (r.id + 1) with
  | none => rfl
  | some c =>
    exfalso
    have := hWF.key_le_input h
    omega

theorem lookupA_fresh_compute {r : Reactor T} (hWF : WF r) :
    lookupA r.compute_cells (r.id + 1) = none := by
  cases h : lookupA r.compute_cells (r.id + 1) with
  | none => rfl
  | some c =>
    exfalso
    have := hWF.key_le_compute h
    omega

theorem cellConsistentB_of_eq {r r2 : Reactor T} {cc : ComputeCell T}
    (h : getCellsValues r2 cc.dependencies = getCellsValues r cc.dependencies)
    (hc : cc.value = cc.func (getCellsValues r cc.dependencies)) :
    cellConsistentB r2 (Cell.Compute cc) = true := by
  unfold cellConsistentB
  rw [decide_eq_true_eq, h]
  exact hc

/-- create_input preserves well-formedness and referential consistency. -/
theorem create_input_preserves {r : Reactor T} (hWF : WF r) (hCons : Consistent r) (v : T) :
    WF (create_input r v).2 ∧ Consistent (create_input r v).2 := by
  have hfresh : lookupA r.input_cells (r.id + 1) = none := lookupA_fresh_input hWF
  have hins : insertA r.input_cells (r.id + 1) (Cell.Input v)
      = r.input_cells ++ [(r.id + 1, Cell.Input v)] := insertA_eq_append hfresh _
  obtain ⟨w1, w2, w3, w4, w5, w6⟩ := hWF
  have hWF2 : WF (create_input r v).2 := by
    refine ⟨?_, w2, ?_, w4, w5, w6⟩
    · show (insertA r.input_cells (r.id + 1) (Cell.Input v)).all
        (fun p => isInputCell p.2) = true
      rw [hins, List.all_append, Bool.and_eq_true]
      exact ⟨w1, by simp [isInputCell]⟩
    · show ((insertA r.input_cells (r.id + 1) (Cell.Input v)).map Prod.fst
          ++ r.compute_cells.map Prod.fst).all (fun k => decide (k ≤ r.id + 1)) = true
      apply List.all_eq_true.mpr
      intro k hk
      simp only [decide_eq_true_eq]
      rw [hins, List.map_append] at hk
      have hold : ∀ m, m ∈ r.input_cells.map Prod.fst ++ r.compute_cells.map Prod.fst →
          m ≤ r.id := by
        intro m hm
        have := List.all_eq_true.mp w3 m hm
        simpa using this
      rcases List.mem_append.mp hk with hk | hk
      · rcases List.mem_append.mp hk with hk | hk
        · have := hold k (List.mem_append_left _ hk); omega
        · simp at hk; omega
      · have := hold k (List.mem_append_right _ hk); omega
  refine ⟨hWF2, ?_⟩
  show (create_input r v).2.compute_cells.all
    (fun p => cellConsistentB (create_input r v).2 p.2) = true
  apply List.all_eq_true.mpr
  intro p hp
  obtain ⟨n, cell⟩ := p
  cases cell with
  | Input w => rfl
  | Compute cc =>
    have hl : lookupA r.compute_cells n = some (Cell.Compute cc) :=
      lookupA_of_mem_nodup hp w4
    have hagree : ∀ m, m < r.id + 1 →
        lookupA r.input_cells m = lookupA (create_input r v).2.input_cells m ∧
        lookupA r.compute_cells m = lookupA (create_input r v).2.compute_cells m := by
      intro m hm
      constructor
      · show lookupA r.input_cells m
          = lookupA (insertA r.input_cells (r.id + 1) (Cell.Input v)) m
        rw [hins, lookupA_append_fresh (by omega) _]
      · rfl
    have hWFr : WF r := ⟨w1, w2, w3, w4, w5, w6⟩
    have hdeps : ∀ d ∈ cc.dependencies, d.get_id < r.id + 1 := by
      obtain ⟨cc2, hc2, hd⟩ := hWFr.compute_cell hl
      injection hc2 with hc2
      subst hc2
      intro d hdm
      have h1 := hd d hdm
      have h2 := hWFr.key_le_compute hl
      omega
    exact cellConsistentB_of_eq
      (getCellsValues_agree_below hWFr hWF2 (r.id + 1) hagree hdeps).symm
      (hCons.cache hl)

theorem pushDep_lookup_ne {m : List (CellId × List CellId)} {k d : CellId} (hk : k ≠ d)
    (c : CellId) : lookupA (pushDep m d c) k = lookupA m k := by
  unfold pushDep
  cases h : lookupA m d with
  | some l => rw [lookupA_insertA_ne _ _ _ _ (fun hh => hk hh.symm)]
  | none => rw [lookupA_append_fresh (fun hh => hk hh.symm) _]

theorem pushDep_mem_self (m : List (CellId × List CellId)) (d c : CellId) :
    ∃ l, lookupA (pushDep m d c) d = some l ∧ c ∈ l := by
  unfold pushDep
  cases h : lookupA m d with
  | some l =>
    exact ⟨l ++ [c], lookupA_insertA_self _ _ _, List.mem_append_right _ (by simp)⟩
  | none => exact ⟨[c], by rw [lookupA_append_none h, lookupA_cons, if_pos rfl], by simp⟩

theorem pushDep_mem_mono {m : List (CellId × List CellId)} {d c k e : CellId}
    (h : ∃ l, lookupA m k = some l ∧ e ∈ l) :
    ∃ l, lookupA (pushDep m d c) k = some l ∧ e ∈ l := by
  obtain ⟨l, hl, he⟩ := h
  by_cases hk : k = d
  · subst hk
    unfold pushDep
    rw [hl]
    exact ⟨l ++ [c], lookupA_insertA_self _ _ _, List.mem_append_left _ he⟩
  · rw [pushDep_lookup_ne hk]
    exact ⟨l, hl, he⟩

theorem foldl_pushDep_mem_mono (c : CellId) :
    ∀ (deps : List CellId) (m : List (CellId × List CellId)) (k e : CellId),
      (∃ l, lookupA m k = some l ∧ e ∈ l) →
      ∃ l, lookupA (deps.foldl (fun m d => pushDep m d c) m) k = some l ∧ e ∈ l := by
  intro deps
  induction deps with
  | nil => intro m k e h; exact h
  | cons d0 rest ih =>
    intro m k e h
    exact ih (pushDep m d0 c) k e (pushDep_mem_mono h)

theorem foldl_pushDep_mem (c : CellId) :
    ∀ (deps : List CellId) (m : List (CellId × List CellId)) (d : CellId), d ∈ deps →
      ∃ l, lookupA (deps.foldl (fun m d2 => pushDep m d2 c) m) d = some l ∧ c ∈ l := by
  intro deps
  induction deps with
  | nil => intro m d h; cases h
  | cons d0 rest ih =>
    intro m d hd
    rcases List.mem_cons.mp hd with hd | hd
    · subst hd
      exact foldl_pushDep_mem_mono c rest (pushDep m d c) d c (pushDep_mem_self m d c)
    · exact ih (pushDep m d0 c) d hd

theorem pushDep_pred {R : CellId → CellId → Prop} {m : List (CellId × List CellId)}
    (hm : ∀ k l, lookupA m k = some l → ∀ e ∈ l, R e k) {d c : CellId} (hc : R c d) :
    ∀ k l, lookupA (pushDep m d c) k = some l → ∀ e ∈ l, R e k := by
  intro k l hkl e hel
  by_cases hk : k = d
  · subst hk
    unfold pushDep at hkl
    cases h : lookupA m k with
    | some l0 =>
      rw [h, lookupA_insertA_self] at hkl
      injection hkl with hkl
      subst hkl
      rcases List.mem_append.mp hel with hel | hel
      · exact hm k l0 h e hel
      · simp at hel; subst hel; exact hc
    | none =>
      rw [h, lookupA_append_none h, lookupA_cons, if_pos rfl] at hkl
      injection hkl with hkl
      subst hkl
      simp at hel
      subst hel
      exact hc
  · rw [pushDep_lookup_ne hk] at hkl
    exact hm k l hkl e hel

theorem foldl_pushDep_pred {R : CellId → CellId → Prop} (c : CellId) :
    ∀ (deps : List CellId) (m : List (CellId × List CellId)),
      (∀ k l, lookupA m k = some l → ∀ e ∈ l, R e k) → (∀ d ∈ deps, R c d) →
      ∀ k l, lookupA (deps.foldl (fun m d => pushDep m d c) m) k = some l → ∀ e ∈ l, R e k := by
  intro deps
  induction deps with
  | nil => intro m hm _; exact hm
  | cons d0 rest ih =>
    intro m hm hc
    exact ih (pushDep m d0 c)
      (pushDep_pred hm (hc d0 (List.mem_cons_self _ _)))
      (fun d hd => hc d (List.mem_cons_of_mem _ hd))
end CreatePreserves

section CreateComputePreserves

variable {T : Type} [DecidableEq T]

/-- The state produced by a successful create_compute call. -/
def create_compute_state (r : Reactor T) (deps : List CellId) (f : List T → T) : Reactor T :=
  { r with id := r.id + 1,
           compute_cells := insertA r.compute_cells (r.id + 1)
             (Cell.Compute ⟨deps, f, f (getCellsValues r deps)⟩),
           dependencies :=
             deps.foldl (fun m d => pushDep m d (CellId.Compute ⟨r.id + 1⟩)) r.dependencies }

theorem create_compute_fail {r : Reactor T} {deps : List CellId} {f : List T → T} {d : CellId}
    (hfind : deps.find? (fun d => (r.value d).isNone) = some d) :
    create_compute r deps f = (Except.error d, r) := by
  unfold create_compute
  rw [hfind]

theorem create_compute_success {r : Reactor T} {deps : List CellId} (f : List T → T)
    (hall : ∀ d ∈ deps, (r.value d).isSome) :
    create_compute r deps f = (Except.ok ⟨r.id + 1⟩, create_compute_state r deps f) := by
  unfold create_compute
  have hfind : deps.find? (fun d => (r.value d).isNone) = none := by
    rw [List.find?_eq_none]
    intro d hd hcon
    rw [Option.isNone_iff_eq_none] at hcon
    have := hall d hd
    rw [hcon] at this
    cases this
  rw [hfind]
  rfl

theorem mem_insertA {α β : Type} [DecidableEq α] {l : List (α × β)} {a : α} {b : β}
    {q : α × β} (h : q ∈ insertA l a b) : q ∈ l ∨ q = (a, b) := by
  induction l with
  | nil => simp at h; exact Or.inr h
  | cons p rest ih =>
    obtain ⟨k, w⟩ := p
    rw [insertA_cons] at h
    by_cases hk : k = a
    · rw [if_pos hk] at h
      rcases List.mem_cons.mp h with h | h
      · exact Or.inr h
      · exact Or.inl (List.mem_cons_of_mem _ h)
    · rw [if_neg hk] at h
      rcases List.mem_cons.mp h with h | h
      · exact Or.inl (h ▸ List.mem_cons_self _ _)
      · rcases ih h with h | h
        · exact Or.inl (List.mem_cons_of_mem _ h)
        · exact Or.inr h

theorem pushDep_pred_mem {R : CellId → CellId → Prop} {m : List (CellId × List CellId)}
    (hm : ∀ q ∈ m, ∀ e ∈ q.2, R e q.1) {d c : CellId} (hc : R c d) :
    ∀ q ∈ pushDep m d c, ∀ e ∈ q.2, R e q.1 := by
  intro q hq e he
  unfold pushDep at hq
  cases h : lookupA m d with
  | some l =>
    rw [h] at hq
    rcases mem_insertA hq with hq | hq
    · exact hm q hq e he
    · subst hq
      rcases List.mem_append.mp he with he | he
      · exact hm (d, l) (lookupA_mem h) e he
      · simp at he; subst he; exact hc
  | none =>
    rw [h] at hq
    rcases List.mem_append.mp hq with hq | hq
    · exact hm q hq e he
    · simp at hq
      subst hq
      simp at he
      subst he
      exact hc

theorem foldl_pushDep_pred_mem {R : CellId → CellId → Prop} (c : CellId) :
    ∀ (deps : List CellId) (m : List (CellId × List CellId)),
      (∀ q ∈ m, ∀ e ∈ q.2, R e q.1) → (∀ d ∈ deps, R c d) →
      ∀ q ∈ deps.foldl (fun m d => pushDep m d c) m, ∀ e ∈ q.2, R e q.1 := by
  intro deps
  induction deps with
  | nil => intro m hm _; exact hm
  | cons d0 rest ih =>
    intro m hm hc
    exact ih (pushDep m d0 c)
      (pushDep_pred_mem hm (hc d0 (List.mem_cons_self _ _)))
      (fun d hd => hc d (List.mem_cons_of_mem _ hd))

/-- A successful create_compute preserves well-formedness and consistency. -/
theorem create_compute_state_preserves {r : Reactor T} (hWF : WF r) (hCons : Consistent r)
    {deps : List CellId} {f : List T → T} (hall : ∀ d ∈ deps, (r.value d).isSome) :
    WF (create_compute_state r deps f) ∧ Consistent (create_compute_state r deps f) := by
  have hdepsle : ∀ d ∈ deps, d.get_id ≤ r.id := fun d hd => value_isSome_key_le hWF (hall d hd)
  have hfreshc : lookupA r.compute_cells (r.id + 1) = none := lookupA_fresh_compute hWF
  have hinsc : insertA r.compute_cells (r.id + 1)
        (Cell.Compute ⟨deps, f, f (getCellsValues r deps)⟩)
      = r.compute_cells ++ [(r.id + 1, Cell.Compute ⟨deps, f, f (getCellsValues r deps)⟩)] :=
    insertA_eq_append hfreshc _
  obtain ⟨w1, w2, w3, w4, w5, w6⟩ := hWF
  have hWFr : WF r := ⟨w1, w2, w3, w4, w5, w6⟩
  have hWF2 : WF (create_compute_state r deps f) := by
    refine ⟨w1, ?_, ?_, ?_, ?_, ?_⟩
    · show (insertA r.compute_cells (r.id + 1)
          (Cell.Compute ⟨deps, f, f (getCellsValues r deps)⟩)).all
        (fun p => depsLtB p.1 p.2) = true
      rw [hinsc, List.all_append, Bool.and_eq_true]
      refine ⟨w2, ?_⟩
      show (depsLtB (r.id + 1) (Cell.Compute ⟨deps, f, f (getCellsValues r deps)⟩) && true)
        = true
      rw [Bool.and_true]
      show deps.all (fun d => decide (d.get_id < r.id + 1)) = true
      apply List.all_eq_true.mpr
      intro d hd
      simp only [decide_eq_true_eq]
      have := hdepsle d hd
      omega
    · show (r.input_cells.map Prod.fst
          ++ (insertA r.compute_cells (r.id + 1)
            (Cell.Compute ⟨deps, f, f (getCellsValues r deps)⟩)).map Prod.fst).all
        (fun k => decide (k ≤ r.id + 1)) = true
      apply List.all_eq_true.mpr
      intro k hk
      simp only [decide_eq_true_eq]
      rw [hinsc, List.map_append] at hk
      have hold : ∀ m, m ∈ r.input_cells.map Prod.fst ++ r.compute_cells.map Prod.fst →
          m ≤ r.id := by
        intro m hm
        have := List.all_eq_true.mp w3 m hm
        simpa using this
      rcases List.mem_append.mp hk with hk | hk
      · have := hold k (List.mem_append_left _ hk); omega
      · rcases List.mem_append.mp hk with hk | hk
        · have := hold k (List.mem_append_right _ hk); omega
        · simp at hk; omega
    · show ((insertA r.compute_cells (r.id + 1)
          (Cell.Compute ⟨deps, f, f (getCellsValues r deps)⟩)).map Prod.fst).Nodup
      rw [hinsc, List.map_append]
      refine List.Nodup.append w4 (List.nodup_singleton _) ?_
      intro a ha hb
      simp at hb
      subst hb
      exact (lookupA_eq_none_iff.mp hfreshc) ha
    · show (deps.foldl (fun m d => pushDep m d (CellId.Compute ⟨r.id + 1⟩))
          r.dependencies).all
        (fun p => p.2.all (fun e => isComputeId e && decide (p.1.get_id < e.get_id))) = true
      apply List.all_eq_true.mpr
      intro q hq
      apply List.all_eq_true.mpr
      intro e he
      rw [Bool.and_eq_true, decide_eq_true_eq]
      refine foldl_pushDep_pred_mem (R := fun e k => isComputeId e = true ∧ k.get_id < e.get_id)
        (CellId.Compute ⟨r.id + 1⟩) deps r.dependencies ?_ ?_ q hq e he
      · intro q2 hq2 e2 he2
        have := List.all_eq_true.mp w5 q2 hq2
        have := List.all_eq_true.mp this e2 he2
        rw [Bool.and_eq_true, decide_eq_true_eq] at this
        exact this
      · intro d hd
        refine ⟨rfl, ?_⟩
        show d.get_id < r.id + 1
        have := hdepsle d hd
        omega
    · show (insertA r.compute_cells (r.id + 1)
          (Cell.Compute ⟨deps, f, f (getCellsValues r deps)⟩)).all
        (fun p => indexOKB (deps.foldl (fun m d => pushDep m d (CellId.Compute ⟨r.id + 1⟩))
          r.dependencies) p.1 p.2) = true
      rw [hinsc, List.all_append, Bool.and_eq_true]
      constructor
      · apply List.all_eq_true.mpr
        intro q hq
        obtain ⟨n, cell⟩ := q
        cases cell with
        | Input w => rfl
        | Compute cc =>
          show cc.dependencies.all _ = true
          apply List.all_eq_true.mpr
          intro d hd
          have hl : lookupA r.compute_cells n = some (Cell.Compute cc) :=
            lookupA_of_mem_nodup hq w4
          obtain ⟨l0, hl0, hmem0⟩ := hWFr.index hl hd
          obtain ⟨l1, hl1, hmem1⟩ := foldl_pushDep_mem_mono (CellId.Compute ⟨r.id + 1⟩)
            deps r.dependencies d (CellId.Compute ⟨n⟩) ⟨l0, hl0, hmem0⟩
          rw [hl1]
          simp only [decide_eq_true_eq]
          exact hmem1
      · show ((indexOKB _ (r.id + 1) (Cell.Compute ⟨deps, f, f (getCellsValues r deps)⟩))
          && true) = true
        rw [Bool.and_true]
        show deps.all _ = true
        apply List.all_eq_true.mpr
        intro d hd
        obtain ⟨l1, hl1, hmem1⟩ := foldl_pushDep_mem (CellId.Compute ⟨r.id + 1⟩)
          deps r.dependencies d hd
        rw [hl1]
        simp only [decide_eq_true_eq]
        exact hmem1
  refine ⟨hWF2, ?_⟩
  have hagree : ∀ m, m < r.id + 1 →
      lookupA r.input_cells m = lookupA (create_compute_state r deps f).input_cells m ∧
      lookupA r.compute_cells m = lookupA (create_compute_state r deps f).compute_cells m := by
    intro m hm
    constructor
    · rfl
    · show lookupA r.compute_cells m
        = lookupA (insertA r.compute_cells (r.id + 1)
          (Cell.Compute ⟨deps, f, f (getCellsValues r deps)⟩)) m
      rw [hinsc, lookupA_append_fresh (by omega) _]
  show (create_compute_state r deps f).compute_cells.all
    (fun p => cellConsistentB (create_compute_state r deps f) p.2) = true
  apply List.all_eq_true.mpr
  intro p hp
  have hp2 : p ∈ r.compute_cells
      ++ [(r.id + 1, Cell.Compute ⟨deps, f, f (getCellsValues r deps)⟩)] := by
    rw [← hinsc]
    exact hp
  rcases List.mem_append.mp hp2 with hpold | hpnew
  · obtain ⟨n, cell⟩ := p
    cases cell with
    | Input w => rfl
    | Compute cc =>
      have hl : lookupA r.compute_cells n = some (Cell.Compute cc) :=
        lookupA_of_mem_nodup hpold w4
      have hdeps : ∀ d ∈ cc.dependencies, d.get_id < r.id + 1 := by
        obtain ⟨cc2, hc2, hd⟩ := hWFr.compute_cell hl
        injection hc2 with hc2
        subst hc2
        intro d hdm
        have h1 := hd d hdm
        have h2 := hWFr.key_le_compute hl
        omega
      exact cellConsistentB_of_eq
        (getCellsValues_agree_below hWFr hWF2 (r.id + 1) hagree hdeps).symm
        (hCons.cache hl)
  · simp at hpnew
    subst hpnew
    show cellConsistentB (create_compute_state r deps f)
      (Cell.Compute ⟨deps, f, f (getCellsValues r deps)⟩) = true
    unfold cellConsistentB
    rw [decide_eq_true_eq]
    show f (getCellsValues r deps) = f (getCellsValues (create_compute_state r deps f) deps)
    rw [getCellsValues_agree_below hWFr hWF2 (r.id + 1) hagree
      (by intro d hd; have := hdepsle d hd; omega)]

/-- create_compute preserves well-formedness and consistency, on both the
failure and the success path. -/
theorem create_compute_preserves {r : Reactor T} (hWF : WF r) (hCons : Consistent r)
    (deps : List CellId) (f : List T → T) :
    WF (create_compute r deps f).2 ∧ Consistent (create_compute r deps f).2 := by
  cases hfind : deps.find? (fun d => (r.value d).isNone) with
  | some d =>
    rw [create_compute_fail hfind]
    exact ⟨hWF, hCons⟩
  | none =>
    have hall : ∀ d ∈ deps, (r.value d).isSome := by
      intro d hd
      have hne := List.find?_eq_none.mp hfind d hd
      cases hv : r.value d with
      | none => exact absurd (by rw [hv]; rfl) hne
      | some w => rfl
    rw [create_compute_success f hall]
    exact create_compute_state_preserves ⟨hWF.1, hWF.2.1, hWF.2.2.1, hWF.2.2.2.1,
      hWF.2.2.2.2.1, hWF.2.2.2.2.2⟩ hCons hall

end CreateComputePreserves

section FieldTransport

variable {T : Type} [DecidableEq T]

theorem getValueF_fields {r r2 : Reactor T} (hin : r2.input_cells = r.input_cells)
    (hc : r2.compute_cells = r.compute_cells) :
    ∀ f, (∀ c, getValueF r2 f c = getValueF r f c) ∧
      (∀ ds, depValues r2 (getValueF r2 f) ds = depValues r (getValueF r f) ds) := by
  have hmap : ∀ d : CellId, cellMap r2 d = cellMap r d := by
    intro d
    cases d with
    | Input i => exact hin
    | Compute j => exact hc
  intro f
  induction f with
  | zero =>
    have hgv : ∀ c : Cell T, getValueF r2 0 c = getValueF r 0 c := fun _ => rfl
    refine ⟨hgv, ?_⟩
    intro ds
    induction ds with
    | nil => rfl
    | cons d rest ihd =>
      show (match lookupA (cellMap r2 d) d.get_id with
        | none => depValues r2 (getValueF r2 0) rest
        | some c =>
          match getValueF r2 0 c with
          | none => none
          | some v => (depValues r2 (getValueF r2 0) rest).map (fun l => v :: l))
        = (match lookupA (cellMap r d) d.get_id with
        | none => depValues r (getValueF r 0) rest
        | some c =>
          match getValueF r 0 c with
          | none => none
          | some v => (depValues r (getValueF r 0) rest).map (fun l => v :: l))
      rw [hmap d]
      cases lookupA (cellMap r d) d.get_id with
      | none => exact ihd
      | some c => rfl
  | succ f ihf =>
    have hgv : ∀ c : Cell T, getValueF r2 (f + 1) c = getValueF r (f + 1) c := by
      intro c
      cases c with
      | Input w => rfl
      | Compute cc =>
        show (depValues r2 (getValueF r2 f) cc.dependencies).map cc.func
          = (depValues r (getValueF r f) cc.dependencies).map cc.func
        rw [ihf.2]
    refine ⟨hgv, ?_⟩
    intro ds
    induction ds with
    | nil => rfl
    | cons d rest ihd =>
      show (match lookupA (cellMap r2 d) d.get_id with
        | none => depValues r2 (getValueF r2 (f + 1)) rest
        | some c =>
          match getValueF r2 (f + 1) c with
          | none => none
          | some v => (depValues r2 (getValueF r2 (f + 1)) rest).map (fun l => v :: l))
        = (match lookupA (cellMap r d) d.get_id with
        | none => depValues r (getValueF r (f + 1)) rest
        | some c =>
          match getValueF r (f + 1) c with
          | none => none
          | some v => (depValues r (getValueF r (f + 1)) rest).map (fun l => v :: l))
      rw [hmap d]
      cases hlc : lookupA (cellMap r d) d.get_id with
      | none => exact ihd
      | some c =>
        show (match getValueF r2 (f + 1) c with
          | none => none
          | some v => (depValues r2 (getValueF r2 (f + 1)) rest).map (fun l => v :: l))
          = (match getValueF r (f + 1) c with
          | none => none
          | some v => (depValues r (getValueF r (f + 1)) rest).map (fun l => v :: l))
        rw [hgv c]
        cases getValueF r (f + 1) c with
        | none => rfl
        | some w =>
          show (depValues r2 (getValueF r2 (f + 1)) rest).map (fun l => w :: l)
            = (depValues r (getValueF r (f + 1)) rest).map (fun l => w :: l)
          rw [ihd]

theorem value_fields {r r2 : Reactor T} (hid : r2.id = r.id)
    (hin : r2.input_cells = r.input_cells) (hc : r2.compute_cells = r.compute_cells)
    (i : CellId) : r2.value i = r.value i := by
  cases i with
  | Input c =>
    show (lookupA r2.input_cells c.id).bind (getValueF r2 (r2.id + 1))
      = (lookupA r.input_cells c.id).bind (getValueF r (r.id + 1))
    rw [hin, hid]
    cases lookupA r.input_cells c.id with
    | none => rfl
    | some cell => exact (getValueF_fields hin hc (r.id + 1)).1 cell
  | Compute c =>
    show (lookupA r2.compute_cells c.id).bind (getValueF r2 (r2.id + 1))
      = (lookupA r.compute_cells c.id).bind (getValueF r (r.id + 1))
    rw [hc, hid]
    cases lookupA r.compute_cells c.id with
    | none => rfl
    | some cell => exact (getValueF_fields hin hc (r.id + 1)).1 cell

theorem WF_fields {r r2 : Reactor T} (hid : r2.id = r.id)
    (hin : r2.input_cells = r.input_cells) (hc : r2.compute_cells = r.compute_cells)
    (hdep : r2.dependencies = r.dependencies) (hWF : WF r) : WF r2 := by
  unfold WF
  rw [hid, hin, hc, hdep]
  exact hWF

theorem Consistent_fields {r r2 : Reactor T} (hid : r2.id = r.id)
    (hin : r2.input_cells = r.input_cells) (hc : r2.compute_cells = r.compute_cells)
    (hCons : Consistent r) : Consistent r2 := by
  show r2.compute_cells.all (fun p => cellConsistentB r2 p.2) = true
  rw [hc]
  apply List.all_eq_true.mpr
  intro p hp
  have horig := List.all_eq_true.mp hCons p hp
  obtain ⟨n, cell⟩ := p
  cases cell with
  | Input w => rfl
  | Compute cc =>
    unfold cellConsistentB at horig ⊢
    rw [decide_eq_true_eq] at horig ⊢
    have : getCellsValues r2 cc.dependencies = getCellsValues r cc.dependencies := by
      unfold getCellsValues
      exact List.filterMap_congr (fun d _ => value_fields hid hin hc d)
    rw [this]
    exact horig

/-- The per-cell callback invariant: every registered callback id lies
between 1 and the cell counter. -/
def CBInv (r : Reactor T) : Prop :=
  r.callbacks.all
    (fun p => p.2.callbacks.all (fun cb => decide (1 ≤ cb ∧ cb ≤ p.2.id))) = true

instance (r : Reactor T) : Decidable (CBInv r) := by
  unfold CBInv
  exact inferInstance

end FieldTransport

section ClaimsErrorPaths

variable {T : Type} [DecidableEq T]

/-- C9: set_value on an InputCellId that names no existing input cell
returns false and leaves the reactor completely unchanged, with no cell
recomputed and no callback invoked; on an existing input cell (of a
well-formed reactor) it returns true. -/
theorem C9_set_value_unknown_false_known_true (r : Reactor T) (X : InputCellId) (v : T) :
    (lookupA r.input_cells X.id = none → set_value r X v = some (false, r, [], [])) ∧
    (WF r → ∀ c, lookupA r.input_cells X.id = some c →
      ∃ rf tr evs, set_value r X v = some (true, rf, tr, evs)) := by
  constructor
  · intro h
    show (match lookupA r.input_cells X.id with
      | some _ =>
        match update_deps (r.id + 1) (writeInput r X v) (CellId.Input X) [] [] with
        | none => none
        | some (r2, changed, tr) => some (true, r2, tr, run_callbacks r2 changed)
      | none => some (false, r, [], [])) = some (false, r, [], [])
    rw [h]
  · intro hWF c hX
    have hWF0 : WF (writeInput r X v) := WF_writeInput hWF hX v
    have hPre0 : PreP (writeInput r X v) (writeInput r X v) [] [] :=
      ⟨ShapeEq_refl _, ⟨fun _ => rfl, List.nodup_nil⟩, fun _ => rfl⟩
    obtain ⟨rf, chf, trf, hstep, _⟩ :=
      update_deps_spec hWF0 (r.id + 1) (writeInput r X v) (CellId.Input X) [] [] hPre0
        (hWF.key_le_input hX) (by show r.id + 1 ≤ r.id + 1 + X.id; omega)
    refine ⟨rf, trf, run_callbacks rf chf, ?_⟩
    show (match lookupA r.input_cells X.id with
      | some _ =>
        match update_deps (r.id + 1) (writeInput r X v) (CellId.Input X) [] [] with
        | none => none
        | some (r2, changed, tr) => some (true, r2, tr, run_callbacks r2 changed)
      | none => some (false, r, [], [])) = some (true, rf, trf, run_callbacks rf chf)
    rw [hX]
    show (match update_deps (r.id + 1) (writeInput r X v) (CellId.Input X) [] [] with
      | none => none
      | some (r2, changed, tr) => some (true, r2, tr, run_callbacks r2 changed))
      = some (true, rf, trf, run_callbacks rf chf)
    rw [hstep]

/-- C6: create_compute with a dependency list containing a CellId whose
value is absent fails, returning such a missing CellId, and returns the
reactor completely unchanged: no cell is created, the identifier counter
is not advanced, and the cell store and dependency index are exactly as
before.  On a well-formed reactor, a CellId has an absent value exactly
when it names no existing cell in its map. -/
theorem C6_create_compute_missing_dep (r : Reactor T) (deps : List CellId)
    (f : List T → T) :
    ((∃ d ∈ deps, r.value d = none) →
      ∃ d, d ∈ deps ∧ r.value d = none ∧ create_compute r deps f = (Except.error d, r)) ∧
    (WF r → ∀ d : CellId, r.value d = none ↔ lookupA (cellMap r d) d.get_id = none) := by
  constructor
  · intro hex
    obtain ⟨d0, hd0, hv0⟩ := hex
    have hsome : (deps.find? (fun d => (r.value d).isNone)).isSome := by
      rw [List.find?_isSome]
      exact ⟨d0, hd0, by rw [hv0]; rfl⟩
    obtain ⟨d, hd⟩ := Option.isSome_iff_exists.mp hsome
    have hmem := List.mem_of_find?_eq_some hd
    have hprop := List.find?_some hd
    have hvd : r.value d = none := by
      rw [Option.isNone_iff_eq_none] at hprop
      exact hprop
    exact ⟨d, hmem, hvd, create_compute_fail hd⟩
  · intro hWF d
    constructor
    · intro hv
      cases hl : lookupA (cellMap r d) d.get_id with
      | none => rfl
      | some c =>
        exfalso
        have := value_isSome_of_lookup hWF hl
        rw [hv] at this
        cases this
    · intro hl
      cases d with
      | Input i =>
        simp only [cellMap, CellId.get_id] at hl
        show (lookupA r.input_cells i.id).bind (getValueF r (r.id + 1)) = none
        rw [hl]
        rfl
      | Compute j =>
        simp only [cellMap, CellId.get_id] at hl
        show (lookupA r.compute_cells j.id).bind (getValueF r (r.id + 1)) = none
        rw [hl]
        rfl

theorem update_loop_noop {r : Reactor T} (hCons : Consistent r)
    (rec : Reactor T → CellId → List (Nat × T) → List REvent →
      Option (Reactor T × List (Nat × T) × List REvent)) :
    ∀ (ds : List CellId) (ch : List (Nat × T)) (tr : List REvent),
      ∃ tr2, update_loop rec r ds ch tr = some (r, ch, tr2) := by
  intro ds
  induction ds with
  | nil => intro ch tr; exact ⟨tr, rfl⟩
  | cons e rest ih =>
    intro ch tr
    cases hle : lookupA r.compute_cells e.get_id with
    | none =>
      obtain ⟨tr2, h2⟩ := ih ch tr
      exact ⟨tr2, by rw [update_loop_cons, hle]; exact h2⟩
    | some c =>
      cases c with
      | Input w =>
        obtain ⟨tr2, h2⟩ := ih ch tr
        exact ⟨tr2, by rw [update_loop_cons, hle]; exact h2⟩
      | Compute cc =>
        have heq : cc.func (getCellsValues r cc.dependencies) = cc.value :=
          (hCons.cache hle).symm
        obtain ⟨tr2, h2⟩ := ih ch (tr ++ [REvent.eval e.get_id])
        exact ⟨tr2, by rw [update_loop_cons_compute rec rest ch tr hle, if_pos heq]; exact h2⟩

/-- C5: on a consistent reactor, writing the value an input cell already
holds fires zero callbacks and returns the reactor exactly unchanged, so
in particular every compute cell value is unchanged. -/
theorem C5_same_value_noop {r : Reactor T} {X : InputCellId} {v : T}
    (hCons : Consistent r) (hX : lookupA r.input_cells X.id = some (Cell.Input v)) :
    ∃ tr, set_value r X v = some (true, r, tr, []) := by
  have hw : writeInput r X v = r := by
    unfold writeInput
    rw [insertA_eq_self hX]
  have hmain : ∃ tr, update_deps (r.id + 1) r (CellId.Input X) [] ([] : List REvent)
      = some (r, [], tr) := by
    cases hld : lookupA r.dependencies (CellId.Input X) with
    | none =>
      refine ⟨[], ?_⟩
      show (match lookupA r.dependencies (CellId.Input X) with
        | none => some (r, [], [])
        | some ids => update_loop (update_deps r.id) r ids [] []) = some (r, [], [])
      rw [hld]
    | some ids =>
      obtain ⟨tr2, hloop⟩ := update_loop_noop hCons (update_deps r.id) ids [] []
      refine ⟨tr2, ?_⟩
      show (match lookupA r.dependencies (CellId.Input X) with
        | none => some (r, [], [])
        | some ids => update_loop (update_deps r.id) r ids [] []) = some (r, [], tr2)
      rw [hld]
      exact hloop
  obtain ⟨tr, htr⟩ := hmain
  refine ⟨tr, ?_⟩
  show (match lookupA r.input_cells X.id with
    | some _ =>
      match update_deps (r.id + 1) (writeInput r X v) (CellId.Input X) [] [] with
      | none => none
      | some (r2, changed, tr) => some (true, r2, tr, run_callbacks r2 changed)
    | none => some (false, r, [], [])) = some (true, r, tr, [])
  rw [hX]
  show (match update_deps (r.id + 1) (writeInput r X v) (CellId.Input X) [] [] with
    | none => none
    | some (r2, changed, tr) => some (true, r2, tr, run_callbacks r2 changed))
    = some (true, r, tr, [])
  rw [hw, htr]
  rfl

end ClaimsErrorPaths

section CallbackOps

variable {T : Type} [DecidableEq T]

theorem add_callback_nocell {r : Reactor T} {n : ComputeCellId}
    (hl : lookupA r.compute_cells n.id = none) : add_callback r n = (none, r) := by
  unfold add_callback check_if_compute_cell_exist
  rw [hl]
  rfl

theorem add_callback_first {r : Reactor T} {n : ComputeCellId} {c : Cell T}
    (hl : lookupA r.compute_cells n.id = some c)
    (hcb : lookupA r.callbacks n.id = none) :
    add_callback r n
      = (some ⟨1⟩, { r with callbacks := insertA r.callbacks n.id ⟨1, [1]⟩ }) := by
  unfold add_callback check_if_compute_cell_exist
  rw [hl, hcb]
  rfl

theorem add_callback_next {r : Reactor T} {n : ComputeCellId} {c : Cell T}
    {entry : CallbackEntry} (hl : lookupA r.compute_cells n.id = some c)
    (hcb : lookupA r.callbacks n.id = some entry) :
    add_callback r n
      = (some ⟨entry.id + 1⟩,
         { r with callbacks := insertA r.callbacks n.id ⟨entry.id + 1, entry.callbacks ++ [entry.id + 1]⟩ }) := by
  unfold add_callback check_if_compute_cell_exist
  rw [hl, hcb]
  rfl

theorem remove_callback_nocell {r : Reactor T} {cell : ComputeCellId} (cb : CallbackId)
    (hl : lookupA r.compute_cells cell.id = none) :
    remove_callback r cell cb = (Except.error RemoveCallbackError.NonexistentCell, r) := by
  unfold remove_callback check_if_compute_cell_exist
  rw [hl]
  rfl

theorem remove_callback_noentry {r : Reactor T} {cell : ComputeCellId} (cb : CallbackId)
    {c : Cell T} (hl : lookupA r.compute_cells cell.id = some c)
    (hcb : lookupA r.callbacks cell.id = none) :
    remove_callback r cell cb
      = (Except.error RemoveCallbackError.NonexistentCallback, r) := by
  unfold remove_callback check_if_compute_cell_exist
  rw [hl, hcb]
  rfl

theorem remove_callback_notmem {r : Reactor T} {cell : ComputeCellId} {cb : CallbackId}
    {c : Cell T} {entry : CallbackEntry} (hl : lookupA r.compute_cells cell.id = some c)
    (hcb : lookupA r.callbacks cell.id = some entry) (hmem : cb.id ∉ entry.callbacks) :
    remove_callback r cell cb
      = (Except.error RemoveCallbackError.NonexistentCallback, r) := by
  unfold remove_callback check_if_compute_cell_exist
  rw [hl, hcb]
  show (if cb.id ∈ entry.callbacks then (Except.ok (), { r with callbacks := insertA r.callbacks cell.id ⟨entry.id, entry.callbacks.filter (fun c2 => c2 ≠ cb.id)⟩ }) else ((Except.error RemoveCallbackError.NonexistentCallback, r) : Except RemoveCallbackError Unit × Reactor T)) = (Except.error RemoveCallbackError.NonexistentCallback, r)
  rw [if_neg hmem]

theorem remove_callback_ok {r : Reactor T} {cell : ComputeCellId} {cb : CallbackId}
    {c : Cell T} {entry : CallbackEntry} (hl : lookupA r.compute_cells cell.id = some c)
    (hcb : lookupA r.callbacks cell.id = some entry) (hmem : cb.id ∈ entry.callbacks) :
    remove_callback r cell cb
      = (Except.ok (), { r with callbacks := insertA r.callbacks cell.id ⟨entry.id, entry.callbacks.filter (fun c2 => c2 ≠ cb.id)⟩ }) := by
  unfold remove_callback check_if_compute_cell_exist
  rw [hl, hcb]
  show (if cb.id ∈ entry.callbacks then (Except.ok (), { r with callbacks := insertA r.callbacks cell.id ⟨entry.id, entry.callbacks.filter (fun c2 => c2 ≠ cb.id)⟩ }) else ((Except.error RemoveCallbackError.NonexistentCallback, r) : Except RemoveCallbackError Unit × Reactor T)) = (Except.ok (), { r with callbacks := insertA r.callbacks cell.id ⟨entry.id, entry.callbacks.filter (fun c2 => c2 ≠ cb.id)⟩ })
  rw [if_pos hmem]

theorem CBInv.bounds {r : Reactor T} (h : CBInv r) {n : Nat} {entry : CallbackEntry}
    (hl : lookupA r.callbacks n = some entry) :
    ∀ cb ∈ entry.callbacks, 1 ≤ cb ∧ cb ≤ entry.id := by
  intro cb hcb
  have h1 := List.all_eq_true.mp h (n, entry) (lookupA_mem hl)
  have h2 := List.all_eq_true.mp h1 cb hcb
  rw [decide_eq_true_eq] at h2
  exact h2

/-- C7: remove_callback fails with NonexistentCell exactly when the compute
cell id names no compute cell; fails with NonexistentCallback when the cell
exists but has no callback entry or the entry lacks the id; otherwise it
removes exactly that callback id and returns ok, and afterwards no
set_value call ever invokes that callback id on that cell again, while the
registry itself is preserved by set_value. -/
theorem C7_remove_callback_spec (r : Reactor T) (cell : ComputeCellId) (cb : CallbackId) :
    (lookupA r.compute_cells cell.id = none →
      remove_callback r cell cb = (Except.error RemoveCallbackError.NonexistentCell, r)) ∧
    (∀ c, lookupA r.compute_cells cell.id = some c →
      lookupA r.callbacks cell.id = none →
      remove_callback r cell cb
        = (Except.error RemoveCallbackError.NonexistentCallback, r)) ∧
    (∀ c entry, lookupA r.compute_cells cell.id = some c →
      lookupA r.callbacks cell.id = some entry → cb.id ∉ entry.callbacks →
      remove_callback r cell cb
        = (Except.error RemoveCallbackError.NonexistentCallback, r)) ∧
    (∀ c entry, lookupA r.compute_cells cell.id = some c →
      lookupA r.callbacks cell.id = some entry → cb.id ∈ entry.callbacks →
      remove_callback r cell cb
        = (Except.ok (), { r with callbacks := insertA r.callbacks cell.id ⟨entry.id, entry.callbacks.filter (fun c2 => c2 ≠ cb.id)⟩ }) ∧
      (WF r → Consistent r → ∀ (X : InputCellId) (w : T) res,
        set_value (remove_callback r cell cb).2 X w = some res →
        (∀ ev ∈ res.2.2.2, ¬(ev.1 = cell.id ∧ ev.2.1 = cb.id)) ∧
        res.2.1.callbacks = (remove_callback r cell cb).2.callbacks)) := by
  refine ⟨fun hl => remove_callback_nocell cb hl,
    fun c hl hcb => remove_callback_noentry cb hl hcb,
    fun c entry hl hcb hmem => remove_callback_notmem hl hcb hmem,
    fun c entry hl hcb hmem => ⟨remove_callback_ok hl hcb hmem, ?_⟩⟩
  intro hWF hCons X w res hres
  rw [remove_callback_ok hl hcb hmem] at hres ⊢
  set r2 : Reactor T := { r with callbacks := insertA r.callbacks cell.id ⟨entry.id, entry.callbacks.filter (fun c2 => c2 ≠ cb.id)⟩ } with hr2
  have hWF2 : WF r2 := @WF_fields T _ r r2 rfl rfl rfl rfl hWF
  have hCons2 : Consistent r2 := @Consistent_fields T _ r r2 rfl rfl rfl hCons
  have hcbl : lookupA r2.callbacks cell.id
      = some ⟨entry.id, entry.callbacks.filter (fun c2 => c2 ≠ cb.id)⟩ := by
    show lookupA (insertA r.callbacks cell.id _) cell.id = _
    rw [lookupA_insertA_self]
  cases hXl : lookupA r2.input_cells X.id with
  | none =>
    have : set_value r2 X w = some (false, r2, [], []) := by
      show (match lookupA r2.input_cells X.id with
        | some _ =>
          match update_deps (r2.id + 1) (writeInput r2 X w) (CellId.Input X) [] [] with
          | none => none
          | some (r3, changed, tr) => some (true, r3, tr, run_callbacks r3 changed)
        | none => some (false, r2, [], [])) = some (false, r2, [], [])
      rw [hXl]
    rw [this] at hres
    injection hres with hres
    subst hres
    exact ⟨fun ev hev => absurd hev (by simp), rfl⟩
  | some c2 =>
    obtain ⟨rf, chf, trf, heq, hshape, hWFf, hConsf, hVal, hnd, hchar, hprev, hvals, hcw⟩ :=
      set_value_spec hWF2 hCons2 hXl
    rw [heq] at hres
    injection hres with hres
    subst hres
    obtain ⟨hmemchar, _⟩ := run_callbacks_char rf chf hvals hnd
    have hcbs : rf.callbacks = r2.callbacks := hshape.2.2.2.1
    constructor
    · intro ev hev hcontra
      obtain ⟨hev1, hev2⟩ := hcontra
      obtain ⟨_, _, hcbm⟩ := hmemchar ev hev
      rw [hev1, hev2] at hcbm
      unfold cbMem at hcbm
      rw [hcbs, hcbl] at hcbm
      have := List.mem_filter.mp hcbm
      have h2 := of_decide_eq_true this.2
      exact h2 rfl
    · exact hcbs

/-- C8: callback identifiers are allocated from a counter private to each
compute cell: the first registration on a cell returns id 1, each later
registration returns the incremented counter, which under the counter
invariant is strictly larger than every id ever issued on that cell (so
ids are never reissued, even after removal, which keeps the counter);
allocation on one cell leaves every other cell registry untouched. -/
theorem C8_callback_id_allocation (r : Reactor T) (n : ComputeCellId) :
    (lookupA r.compute_cells n.id = none → add_callback r n = (none, r)) ∧
    (∀ c, lookupA r.compute_cells n.id = some c → lookupA r.callbacks n.id = none →
      add_callback r n
        = (some ⟨1⟩, { r with callbacks := insertA r.callbacks n.id ⟨1, [1]⟩ })) ∧
    (∀ c entry, lookupA r.compute_cells n.id = some c →
      lookupA r.callbacks n.id = some entry →
      add_callback r n
        = (some ⟨entry.id + 1⟩,
           { r with callbacks := insertA r.callbacks n.id ⟨entry.id + 1, entry.callbacks ++ [entry.id + 1]⟩ }) ∧
      (CBInv r → ∀ cbid ∈ entry.callbacks, cbid < entry.id + 1)) ∧
    (∀ m, m ≠ n.id → lookupA (add_callback r n).2.callbacks m = lookupA r.callbacks m) ∧
    (CBInv r → CBInv (add_callback r n).2) ∧
    (∀ (cell : ComputeCellId) (cb : CallbackId), CBInv r →
      CBInv (remove_callback r cell cb).2) ∧
    (∀ (cell : ComputeCellId) (cb : CallbackId) (m : Nat),
      (lookupA (remove_callback r cell cb).2.callbacks m).map CallbackEntry.id
        = (lookupA r.callbacks m).map CallbackEntry.id) := by
  refine ⟨fun hl => add_callback_nocell hl,
    fun c hl hcb => add_callback_first hl hcb,
    fun c entry hl hcb => ⟨add_callback_next hl hcb, ?_⟩, ?_, ?_, ?_, ?_⟩
  · intro hInv cbid hcbid
    have := hInv.bounds hcb cbid hcbid
    omega
  · intro m hm
    cases hl : lookupA r.compute_cells n.id with
    | none => rw [add_callback_nocell hl]
    | some c =>
      cases hcb : lookupA r.callbacks n.id with
      | none =>
        rw [add_callback_first hl hcb]
        exact lookupA_insertA_ne _ _ _ _ (fun h => hm h.symm)
      | some entry =>
        rw [add_callback_next hl hcb]
        exact lookupA_insertA_ne _ _ _ _ (fun h => hm h.symm)
  · intro hInv
    cases hl : lookupA r.compute_cells n.id with
    | none => rw [add_callback_nocell hl]; exact hInv
    | some c =>
      cases hcb : lookupA r.callbacks n.id with
      | none =>
        rw [add_callback_first hl hcb]
        show (insertA r.callbacks n.id ⟨1, [1]⟩).all _ = true
        apply List.all_eq_true.mpr
        intro q hq
        rcases mem_insertA hq with hq | hq
        · exact List.all_eq_true.mp hInv q hq
        · subst hq
          rfl
      | some entry =>
        rw [add_callback_next hl hcb]
        show (insertA r.callbacks n.id ⟨entry.id + 1, entry.callbacks ++ [entry.id + 1]⟩).all
          _ = true
        apply List.all_eq_true.mpr
        intro q hq
        rcases mem_insertA hq with hq | hq
        · exact List.all_eq_true.mp hInv q hq
        · subst hq
          apply List.all_eq_true.mpr
          intro cbid hcbid
          rw [decide_eq_true_eq]
          rcases List.mem_append.mp hcbid with hcbid | hcbid
          · have := hInv.bounds hcb cbid hcbid
            show 1 ≤ cbid ∧ cbid ≤ entry.id + 1
            omega
          · simp at hcbid
            subst hcbid
            show 1 ≤ entry.id + 1 ∧ entry.id + 1 ≤ entry.id + 1
            omega
  · intro cell cb hInv
    cases hl : lookupA r.compute_cells cell.id with
    | none => rw [remove_callback_nocell cb hl]; exact hInv
    | some c =>
      cases hcb : lookupA r.callbacks cell.id with
      | none => rw [remove_callback_noentry cb hl hcb]; exact hInv
      | some entry =>
        by_cases hmem : cb.id ∈ entry.callbacks
        · rw [remove_callback_ok hl hcb hmem]
          show (insertA r.callbacks cell.id
            ⟨entry.id, entry.callbacks.filter (fun c2 => c2 ≠ cb.id)⟩).all _ = true
          apply List.all_eq_true.mpr
          intro q hq
          rcases mem_insertA hq with hq | hq
          · exact List.all_eq_true.mp hInv q hq
          · subst hq
            apply List.all_eq_true.mpr
            intro cbid hcbid
            rw [decide_eq_true_eq]
            have := hInv.bounds hcb cbid (List.mem_filter.mp hcbid).1
            exact this
        · rw [remove_callback_notmem hl hcb hmem]; exact hInv
  · intro cell cb m
    cases hl : lookupA r.compute_cells cell.id with
    | none => rw [remove_callback_nocell cb hl]
    | some c =>
      cases hcb : lookupA r.callbacks cell.id with
      | none => rw [remove_callback_noentry cb hl hcb]
      | some entry =>
        by_cases hmem : cb.id ∈ entry.callbacks
        · rw [remove_callback_ok hl hcb hmem]
          by_cases hm : cell.id = m
          · subst hm
            show (lookupA (insertA r.callbacks cell.id _) cell.id).map CallbackEntry.id = _
            rw [lookupA_insertA_self, hcb]
            rfl
          · show (lookupA (insertA r.callbacks cell.id _) m).map CallbackEntry.id = _
            rw [lookupA_insertA_ne _ _ _ _ hm]
        · rw [remove_callback_notmem hl hcb hmem]

end CallbackOps

section ClaimC4

variable {T : Type} [DecidableEq T]

/-- C4: referential consistency — after every public operation, every
compute cell cached value equals its function applied to the current
values of its dependencies in declaration order (Consistent), and this,
together with well-formedness, is preserved by create_input,
create_compute, set_value, add_callback and remove_callback. -/
theorem C4_consistency_invariant (r : Reactor T) (hWF : WF r) (hCons : Consistent r) :
    (∀ v, WF (create_input r v).2 ∧ Consistent (create_input r v).2) ∧
    (∀ deps f, WF (create_compute r deps f).2 ∧ Consistent (create_compute r deps f).2) ∧
    (∀ X v res, set_value r X v = some res → WF res.2.1 ∧ Consistent res.2.1) ∧
    (∀ n, WF (add_callback r n).2 ∧ Consistent (add_callback r n).2) ∧
    (∀ cell cb, WF (remove_callback r cell cb).2 ∧ Consistent (remove_callback r cell cb).2)
    := by
  refine ⟨fun v => create_input_preserves hWF hCons v,
    fun deps f => create_compute_preserves hWF hCons deps f, ?_, ?_, ?_⟩
  · intro X v res hres
    cases hX : lookupA r.input_cells X.id with
    | none =>
      have hfalse : set_value r X v = some (false, r, [], []) := by
        show (match lookupA r.input_cells X.id with
          | some _ =>
            match update_deps (r.id + 1) (writeInput r X v) (CellId.Input X) [] [] with
            | none => none
            | some (r2, changed, tr) => some (true, r2, tr, run_callbacks r2 changed)
          | none => some (false, r, [], [])) = some (false, r, [], [])
        rw [hX]
      rw [hfalse] at hres
      injection hres with hres
      subst hres
      exact ⟨hWF, hCons⟩
    | some c =>
      obtain ⟨rf, chf, trf, heq, _, hWFf, hConsf, _⟩ := set_value_spec hWF hCons hX
      rw [heq] at hres
      injection hres with hres
      subst hres
      exact ⟨hWFf, hConsf⟩
  · intro n
    cases hl : lookupA r.compute_cells n.id with
    | none =>
      rw [add_callback_nocell hl]
      exact ⟨hWF, hCons⟩
    | some c =>
      cases hcb : lookupA r.callbacks n.id with
      | none =>
        rw [add_callback_first hl hcb]
        exact ⟨@WF_fields T _ r _ rfl rfl rfl rfl hWF,
          @Consistent_fields T _ r _ rfl rfl rfl hCons⟩
      | some entry =>
        rw [add_callback_next hl hcb]
        exact ⟨@WF_fields T _ r _ rfl rfl rfl rfl hWF,
          @Consistent_fields T _ r _ rfl rfl rfl hCons⟩
  · intro cell cb
    cases hl : lookupA r.compute_cells cell.id with
    | none =>
      rw [remove_callback_nocell cb hl]
      exact ⟨hWF, hCons⟩
    | some c =>
      cases hcb : lookupA r.callbacks cell.id with
      | none =>
        rw [remove_callback_noentry cb hl hcb]
        exact ⟨hWF, hCons⟩
      | some entry =>
        by_cases hmem : cb.id ∈ entry.callbacks
        · rw [remove_callback_ok hl hcb hmem]
          exact ⟨@WF_fields T _ r _ rfl rfl rfl rfl hWF,
            @Consistent_fields T _ r _ rfl rfl rfl hCons⟩
        · rw [remove_callback_notmem hl hcb hmem]
          exact ⟨hWF, hCons⟩

end ClaimC4

section ClaimC10

/-- C10 (implicit): Reactor::value on a compute cell recursively
re-evaluates the compute function over the dependencies' current values at
the moment of the call and never reads the cached value field: the result
is invariant under arbitrary changes of the caches (any two ShapeEq
reactors give equal values everywhere), and on a well-formed reactor it
always equals the function applied to the current dependency values. -/
theorem C10_value_ignores_cache :
    (∀ (S : Type) [DecidableEq S] (r r2 : Reactor S), ShapeEq r r2 →
      ∀ i, r.value i = r2.value i) ∧
    (∀ (S : Type) [DecidableEq S] (r : Reactor S), WF r →
      ∀ (n : Nat) (cc : ComputeCell S), lookupA r.compute_cells n = some (Cell.Compute cc) →
      r.value (CellId.Compute ⟨n⟩) = some (cc.func (getCellsValues r cc.dependencies))) := by
  constructor
  · intro S _ r r2 h i
    exact value_shape h i
  · intro S _ r hWF n cc hl
    exact value_compute_unfold hWF hl

end ClaimC10

section ClaimC3

/-- A unary compute function over the dependency-value list, as the source
builds it: the single dependency value arrives as the head of the slice. -/
def unaryFn (f : Int → Int) : List Int → Int := fun vs => f (vs.headD 0)

/-- A binary compute function over the dependency-value list: the two
dependency values arrive as the first two entries of the slice. -/
def binaryFn (h : Int → Int → Int) : List Int → Int :=
  fun vs => h (vs.headD 0) ((vs.drop 1).headD 0)

/-- The diamond graph of claim C3, built through the public API: input
X = cell 1 with initial value x0, compute A = cell 2 = f(X), compute
B = cell 3 = g(X), compute C = cell 4 = h(A, B). -/
def diamond (f g : Int → Int) (h : Int → Int → Int) (x0 : Int) : Reactor Int :=
  (create_compute
    (create_compute
      (create_compute
        (create_input (Reactor.new Int) x0).2
        [CellId.Input ⟨1⟩] (unaryFn f)).2
      [CellId.Input ⟨1⟩] (unaryFn g)).2
    [CellId.Compute ⟨2⟩, CellId.Compute ⟨3⟩] (binaryFn h)).2

/-- C3: in every diamond graph X, A = f(X), B = g(X), C = h(A, B), a call
set_value(X, v) succeeds and afterwards value(C) equals h(f(v), g(v)),
never a result computed from a stale A or B. -/
theorem C3_diamond_final (f g : Int → Int) (h : Int → Int → Int) (x0 v : Int) :
    ∃ rf tr evs, set_value (diamond f g h x0) ⟨1⟩ v = some (true, rf, tr, evs) ∧
      rf.value (CellId.Compute ⟨4⟩) = some (h (f v) (g v)) := by
  have h0 : WF (Reactor.new Int) ∧ Consistent (Reactor.new Int) :=
    ⟨⟨rfl, rfl, rfl, List.nodup_nil, rfl, rfl⟩, rfl⟩
  have h1 := create_input_preserves h0.1 h0.2 x0
  have h2 := create_compute_preserves h1.1 h1.2 [CellId.Input ⟨1⟩] (unaryFn f)
  have h3 := create_compute_preserves h2.1 h2.2 [CellId.Input ⟨1⟩] (unaryFn g)
  have h4 := create_compute_preserves h3.1 h3.2
    [CellId.Compute ⟨2⟩, CellId.Compute ⟨3⟩] (binaryFn h)
  have hWFd : WF (diamond f g h x0) := h4.1
  have hConsd : Consistent (diamond f g h x0) := h4.2
  have hX : lookupA (diamond f g h x0).input_cells (1 : Nat) = some (Cell.Input x0) := rfl
  obtain ⟨rf, chf, trf, heq, hshape, hWFf, hConsf, hVal, _⟩ :=
    set_value_spec hWFd hConsd hX
  refine ⟨rf, trf, run_callbacks rf chf, heq, ?_⟩
  rw [hVal]
  show (writeInput (diamond f g h x0) ⟨1⟩ v).value (CellId.Compute ⟨4⟩)
    = some (h (f v) (g v))
  rfl

end ClaimC3

section ClaimC1C2

variable {T : Type} [DecidableEq T]

/-- C1: for a compute cell with exactly one registered callback, a single
set_value on an existing input cell invokes that callback exactly once if
the cell's final settled value differs from its pre-write value and zero
times otherwise, and every invocation it receives carries the cell's final
settled value. -/
theorem C1_callback_fire_once {r : Reactor T} {X : InputCellId} {v : T} {c : Cell T}
    {n cb : Nat} {entry : CallbackEntry}
    (hWF : WF r) (hCons : Consistent r) (hX : lookupA r.input_cells X.id = some c)
    (hcb : lookupA r.callbacks n = some entry) (hone : entry.callbacks = [cb]) :
    ∃ rf tr evs, set_value r X v = some (true, rf, tr, evs) ∧
      evCount evs n cb
        = (if rf.value (CellId.Compute ⟨n⟩) ≠ r.value (CellId.Compute ⟨n⟩)
           then 1 else 0) ∧
      (∀ ev ∈ evs, ev.1 = n → some ev.2.2 = rf.value (CellId.Compute ⟨n⟩)) := by
  obtain ⟨rf, chf, trf, heq, hshape, hWFf, hConsf, hVal, hnd, hchar, hprev, hvals, hcw⟩ :=
    set_value_spec hWF hCons hX
  obtain ⟨hmemchar, hcount⟩ := run_callbacks_char rf chf hvals hnd
  refine ⟨rf, trf, run_callbacks rf chf, heq, ?_, ?_⟩
  · rw [hcount n cb]
    have hcbrf : lookupA rf.callbacks n = some entry := by
      rw [hshape.2.2.2.1]
      exact hcb
    have hcbCount : cbCount rf n cb = 1 := by
      unfold cbCount
      rw [hcbrf]
      show List.count cb entry.callbacks = 1
      rw [hone]
      simp
    by_cases hchanged : rf.value (CellId.Compute ⟨n⟩) ≠ r.value (CellId.Compute ⟨n⟩)
    · rw [if_pos ((hchar n).mpr hchanged), if_pos hchanged, hcbCount]
    · rw [if_neg (fun hs => hchanged ((hchar n).mp hs)), if_neg hchanged]
  · intro ev hev h1
    obtain ⟨_, hval, _⟩ := hmemchar ev hev
    rw [← h1]
    exact hval.symm

/-- C2 (amended part): the caches behave as the claim says of recomputation
— for every call to set_value on an existing input cell, each compute
cell's cached value is written exactly once if its settled value changed
and zero times otherwise (so at most once per write), and afterwards every
cache holds its final referentially consistent value. -/
theorem C2_cache_write_once {r : Reactor T} {X : InputCellId} {v : T} {c : Cell T}
    (hWF : WF r) (hCons : Consistent r) (hX : lookupA r.input_cells X.id = some c) :
    ∃ rf tr evs, set_value r X v = some (true, rf, tr, evs) ∧
      (∀ n, countW tr n
        = if rf.value (CellId.Compute ⟨n⟩) ≠ r.value (CellId.Compute ⟨n⟩)
          then 1 else 0) ∧
      Consistent rf := by
  obtain ⟨rf, chf, trf, heq, hshape, hWFf, hConsf, hVal, hnd, hchar, hprev, hvals, hcw⟩ :=
    set_value_spec hWF hCons hX
  refine ⟨rf, trf, run_callbacks rf chf, heq, ?_, hConsf⟩
  intro n
  rw [hcw n]
  by_cases hch : rf.value (CellId.Compute ⟨n⟩) ≠ r.value (CellId.Compute ⟨n⟩)
  · rw [if_pos ((hchar n).mpr hch), if_pos hch]
  · rw [if_neg (fun hs => hch ((hchar n).mp hs)), if_neg hch]

/-- The ghost trace of set_value(X, 100) on the concrete diamond X = input
cell 1 (initial 10), A = cell 2 = X + 1, B = cell 3 = X + 2,
C = cell 4 = A + B. -/
def diaTrace : List REvent :=
  match set_value (diamond (fun x => x + 1) (fun x => x + 2) (fun a b => a + b) 10)
      ⟨1⟩ 100 with
  | some (_, _, tr, _) => tr
  | none => []

/-- C2 (refuted part): in the diamond X = 1, A = 2 = X+1, B = 3 = X+2,
C = 4 = A+B, the single call set_value(X, 100) evaluates the compute
function of the affected cell C twice (one ghost eval event, source line
324, per incoming changed edge A and B), so an affected cell's recompute
function can be applied more than once per write; its cached value is
nevertheless written only once. -/
theorem C2_recompute_twice_counterexample :
    countE diaTrace 4 = 2 ∧ countW diaTrace 4 = 1 := by decide

end ClaimC1C2

section Witnesses

/-- Concrete reactor with one input cell (id 1, value 5). -/
def wr1 : Reactor Int := (create_input (Reactor.new Int) 5).2

/-- wr1 extended with compute cell 2 = input 1 + 1. -/
def wr2 : Reactor Int :=
  (create_compute wr1 [CellId.Input ⟨1⟩] (fun vs => vs.headD 0 + 1)).2

/-- wr2 with one callback (id 1) registered on compute cell 2. -/
def wr3 : Reactor Int := (add_callback wr2 ⟨2⟩).2

/-- wr2 with the cache of compute cell 2 clobbered to the stale value 99. -/
def wr2stale : Reactor Int :=
  { wr2 with compute_cells :=
      [(2, Cell.Compute ⟨[CellId.Input ⟨1⟩], fun vs => vs.headD 0 + 1, 99⟩)] }

/-- wr3 after removing callback 1 from cell 2. -/
def wrRemoved : Reactor Int := (remove_callback wr3 ⟨2⟩ ⟨1⟩).2

/-- The concrete result of set_value(1, 42) on wrRemoved. -/
def wrRes : Bool × Reactor Int × List REvent × List (Nat × Nat × Int) :=
  (set_value wrRemoved ⟨1⟩ 42).getD (false, wrRemoved, [], [])

theorem C1_witness :
    ∃ rf tr evs, set_value wr3 ⟨1⟩ (7 : Int) = some (true, rf, tr, evs) ∧
      evCount evs 2 1
        = (if rf.value (CellId.Compute ⟨2⟩) ≠ wr3.value (CellId.Compute ⟨2⟩)
           then 1 else 0) ∧
      (∀ ev ∈ evs, ev.1 = 2 → some ev.2.2 = rf.value (CellId.Compute ⟨2⟩)) :=
  @C1_callback_fire_once Int _ wr3 ⟨1⟩ 7 (Cell.Input 5) 2 1 ⟨1, [1]⟩
    (by decide) (by decide) rfl rfl rfl

theorem C2_witness :
    ∃ rf tr evs, set_value wr2 ⟨1⟩ (9 : Int) = some (true, rf, tr, evs) ∧
      (∀ n, countW tr n
        = if rf.value (CellId.Compute ⟨n⟩) ≠ wr2.value (CellId.Compute ⟨n⟩)
          then 1 else 0) ∧
      Consistent rf :=
  @C2_cache_write_once Int _ wr2 ⟨1⟩ 9 (Cell.Input 5) (by decide) (by decide) rfl

theorem C4_witness :
    (∀ v, WF (create_input wr2 v).2 ∧ Consistent (create_input wr2 v).2) ∧
    (∀ deps f, WF (create_compute wr2 deps f).2 ∧ Consistent (create_compute wr2 deps f).2) ∧
    (∀ X v res, set_value wr2 X v = some res → WF res.2.1 ∧ Consistent res.2.1) ∧
    (∀ n, WF (add_callback wr2 n).2 ∧ Consistent (add_callback wr2 n).2) ∧
    (∀ cell cb, WF (remove_callback wr2 cell cb).2 ∧ Consistent (remove_callback wr2 cell cb).2)
    :=
  C4_consistency_invariant wr2 (by decide) (by decide)

theorem C5_witness : ∃ tr, set_value wr2 ⟨1⟩ (5 : Int) = some (true, wr2, tr, []) :=
  @C5_same_value_noop Int _ wr2 ⟨1⟩ 5 (by decide) rfl

theorem C6_witness :
    (∃ d, d ∈ [CellId.Input ⟨9⟩] ∧ wr2.value d = none ∧
      create_compute wr2 [CellId.Input ⟨9⟩] (fun vs => vs.headD 0)
        = (Except.error d, wr2)) ∧
    (wr2.value (CellId.Input ⟨9⟩) = none ↔
      lookupA (cellMap wr2 (CellId.Input ⟨9⟩)) (CellId.Input ⟨9⟩).get_id = none) :=
  ⟨(C6_create_compute_missing_dep wr2 [CellId.Input ⟨9⟩] (fun vs => vs.headD 0)).1
      ⟨CellId.Input ⟨9⟩, by decide, rfl⟩,
   (C6_create_compute_missing_dep wr2 [CellId.Input ⟨9⟩] (fun vs => vs.headD 0)).2
      (by decide) (CellId.Input ⟨9⟩)⟩

theorem C7_witness :
    remove_callback wr3 ⟨2⟩ ⟨1⟩
      = (Except.ok (), { wr3 with callbacks := insertA wr3.callbacks 2 ⟨1, ([1] : List Nat).filter (fun c2 => c2 ≠ 1)⟩ }) ∧
    (∀ ev ∈ wrRes.2.2.2, ¬(ev.1 = 2 ∧ ev.2.1 = 1)) ∧
    wrRes.2.1.callbacks = wrRemoved.callbacks := by
  have h4 := (C7_remove_callback_spec wr3 ⟨2⟩ ⟨1⟩).2.2.2 _ _ rfl rfl (by decide)
  have hres : set_value wrRemoved ⟨1⟩ (42 : Int) = some wrRes := rfl
  obtain ⟨ha, hb⟩ := h4.2 (by decide) (by decide) ⟨1⟩ 42 wrRes hres
  exact ⟨h4.1, ha, hb⟩

theorem C8_witness :
    add_callback wr2 ⟨2⟩
      = (some ⟨1⟩, { wr2 with callbacks := insertA wr2.callbacks 2 ⟨1, [1]⟩ }) ∧
    add_callback wr3 ⟨2⟩
      = (some ⟨2⟩, { wr3 with callbacks := insertA wr3.callbacks 2 ⟨2, [1] ++ [2]⟩ }) ∧
    (∀ cbid ∈ ([1] : List Nat), cbid < 2) ∧
    CBInv (add_callback wr3 ⟨2⟩).2 ∧
    (lookupA (remove_callback wr3 ⟨2⟩ ⟨1⟩).2.callbacks 2).map CallbackEntry.id
      = (lookupA wr3.callbacks 2).map CallbackEntry.id := by
  have h2 := (C8_callback_id_allocation wr2 ⟨2⟩).2.1 _ rfl rfl
  have h3 := (C8_callback_id_allocation wr3 ⟨2⟩).2.2.1 _ _ rfl rfl
  exact ⟨h2, h3.1, h3.2 (by decide),
    (C8_callback_id_allocation wr3 ⟨2⟩).2.2.2.2.1 (by decide),
    (C8_callback_id_allocation wr3 ⟨2⟩).2.2.2.2.2.2 ⟨2⟩ ⟨1⟩ 2⟩

theorem C9_witness :
    set_value wr2 ⟨77⟩ (3 : Int) = some (false, wr2, [], []) ∧
    ∃ rf tr evs, set_value wr2 ⟨1⟩ (3 : Int) = some (true, rf, tr, evs) :=
  ⟨(C9_set_value_unknown_false_known_true wr2 ⟨77⟩ 3).1 rfl,
   (C9_set_value_unknown_false_known_true wr2 ⟨1⟩ 3).2 (by decide) (Cell.Input 5) rfl⟩

theorem C10_witness :
    wr2.value (CellId.Compute ⟨2⟩) = wr2stale.value (CellId.Compute ⟨2⟩) ∧
    wr2stale.value (CellId.Compute ⟨2⟩) = some 6 ∧
    cacheAt wr2stale 2 = some 99 := by
  refine ⟨C10_value_ignores_cache.1 Int wr2 wr2stale
      ⟨rfl, rfl, rfl, rfl, List.Forall₂.cons ⟨rfl, rfl, rfl⟩ List.Forall₂.nil⟩
      (CellId.Compute ⟨2⟩), ?_, rfl⟩
  have h := C10_value_ignores_cache.2 Int wr2stale (by decide) 2
    ⟨[CellId.Input ⟨1⟩], fun vs => vs.headD 0 + 1, 99⟩ rfl
  rw [h]
  decide

end Witnesses
